import Mathlib

/-!
Verification development for the zeddy theme generator/migrator.

The embedding follows the Rust sources:
  * `src/color/color.rs`   — `ColorModifiers` (Eq/Hash), `HexColor`, `parse_hex_color`
  * `src/color/palette.rs` — `Palette::resolve`, `ResolvedPalette::lookup`, `PaletteGenerator`
  * `src/generate/json.rs` — `generate_json`, `apply_action`, `process_syntax_path`
  * `src/generate/kdl.rs`  — `visit_styles`, `ColorVisitor`, `ModifierVisitor`, `generate_kdl`
  * `src/schema/kdl.rs`    — `Theme::merge`, `Theme::extract_common`, the KDL data model
  * `src/schema/json.rs`   — the flat JSON data model

Machine integers are `Nat` with explicit `% 2 ^ w` where wrapping matters.
Hash maps are association lists; where the source's iteration order is
nondeterministic the list order stands in for it.  The floating point
behaviour of the external `palette` crate (perceptual modifier application),
the external `colornamer` crate, and the single `f32` division
`alpha_to_modifier` do not translate to the shallow embedding; they are
threaded through every pipeline definition as an explicit parameter
(structure `Ext` below), so every theorem quantifies over them or evaluates
them only where their value is irrelevant or pinned by the specification.
-/

namespace Zeddy

/-- Bit-level model of a Rust `f32` value: the 32-bit pattern as a `Nat`.
The `ColorModifiers` fields are only ever compared and hashed by the code the
claims touch, so the embedding needs the IEEE-754 classification of the
pattern, not float arithmetic. -/
structure F32 where
  bits : Nat
deriving DecidableEq

/-- Biased exponent field of the pattern. -/
def F32.exponent (x : F32) : Nat := x.bits / 2 ^ 23 % 2 ^ 8

/-- Mantissa field of the pattern. -/
def F32.mantissa (x : F32) : Nat := x.bits % 2 ^ 23

/-- `x.classify() == FpCategory::Nan`. -/
def F32.isNan (x : F32) : Bool := x.exponent == 255 && x.mantissa != 0

/-- `x.classify() == FpCategory::Zero` (exactly `+0.0` and `-0.0`). -/
def F32.isZero (x : F32) : Bool := x.exponent == 0 && x.mantissa == 0

/-- IEEE-754 equality on `f32` as implemented by Rust `PartialEq`: `NaN` is
unequal to everything (itself included), `-0.0 == 0.0`, and otherwise two
values are equal exactly when their bit patterns agree. -/
def f32Eq (a b : F32) : Bool :=
  !a.isNan && !b.isNan && (a.bits == b.bits || (a.isZero && b.isZero))

/-- Bit pattern of Rust's `f32::NAN`. -/
def F32.nanBits : Nat := 0x7fc00000

/-- The word fed to the hasher for one optional `f32` field, from
`impl Hash for ColorModifiers` in `src/color/color.rs`: a zero of either sign
hashes as `0u32`, any NaN hashes as `f32::NAN.to_bits()`, every other value
hashes as its own bit pattern. -/
def hashF32 (x : Option F32) : Option Nat :=
  x.map fun v =>
    if v.isZero then 0
    else if v.isNan then F32.nanBits
    else v.bits

/-- `ColorModifiers` from `src/color/color.rs`: six independent optional
`f32` adjustments. -/
structure ColorModifiers where
  alpha : Option F32 := none
  lighten : Option F32 := none
  darken : Option F32 := none
  saturate : Option F32 := none
  desaturate : Option F32 := none
  hueShift : Option F32 := none
deriving DecidableEq

/-- Pointwise lift of `f32Eq` to an optional field, as the derived
`PartialEq` of `Option<f32>` behaves. -/
def optF32Eq : Option F32 → Option F32 → Bool
  | none, none => true
  | some a, some b => f32Eq a b
  | _, _ => false

/-- The derived `PartialEq` on `ColorModifiers` (which `impl Eq` then
promotes): pointwise IEEE-754 `f32` equality of the six fields. -/
def ColorModifiers.beq (m n : ColorModifiers) : Bool :=
  optF32Eq m.alpha n.alpha && optF32Eq m.lighten n.lighten &&
  optF32Eq m.darken n.darken && optF32Eq m.saturate n.saturate &&
  optF32Eq m.desaturate n.desaturate && optF32Eq m.hueShift n.hueShift

/-- The stream of words `ColorModifiers::hash` feeds to the hasher, in field
order.  Two values feed equal streams exactly when every hasher sees them
equally. -/
def ColorModifiers.hashStream (m : ColorModifiers) : List (Option Nat) :=
  [hashF32 m.alpha, hashF32 m.lighten, hashF32 m.darken,
   hashF32 m.saturate, hashF32 m.desaturate, hashF32 m.hueShift]

/-- `HexColor` from `src/color/color.rs`: four 8-bit channels `[r, g, b, a]`. -/
structure HexColor where
  r : Nat
  g : Nat
  b : Nat
  a : Nat
deriving DecidableEq

/-- `BaseColorKind` from `src/color/color.rs`. -/
inductive BaseColorKind where
  | paletteReference (name : String)
  | hex (color : HexColor)
deriving DecidableEq

/-- `Color` from `src/color/color.rs`: a base plus modifiers. -/
structure Color where
  base : BaseColorKind
  modifiers : ColorModifiers := {}
deriving DecidableEq

/-- The Rust `PartialEq` on `Color` (derived): structural on the base,
`ColorModifiers.beq` on the modifiers. -/
def Color.beqRust (c d : Color) : Bool :=
  (c.base == d.base) && ColorModifiers.beq c.modifiers d.modifiers

/-- External numeric semantics the repository only calls into via other
crates (so they do not translate to the shallow embedding):
`applyModifiers` is `HexColor::apply_modifiers` (f32 perceptual colour math
of the `palette` crate), `nameColor` is the `colornamer` name for an RGB
triple, and `alphaToModifier` is the `f32` value of `f32::from(a) / 255.0`.
Every pipeline definition takes an `Ext` parameter. -/
structure Ext where
  applyModifiers : HexColor → ColorModifiers → HexColor
  nameColor : Nat × Nat × Nat → String
  alphaToModifier : Nat → F32

/-- Concrete instantiation of `Ext` used only for closed evaluations, and
only at points where the result does not depend on the external values or
(for `applyModifiers` at empty modifiers) where the specification pins the
result to the identity. -/
def extModel : Ext :=
  { applyModifiers := fun c _ => c
    nameColor := fun _ => "color"
    alphaToModifier := fun _ => ⟨0⟩ }

/-! ## Palette resolution (`src/color/palette.rs`)

A `Palette` is `HashMap<String, Color>`; the embedding uses an association
list whose order stands in for the map's iteration order.  All error strings
of the source become structured constructors carrying the same data. -/

/-- Errors of the generation pipeline.  `selfCycle` is the
"directly depends on itself" report of `Palette::resolve_color`; `cycle`
carries `deps[idx..]`, the full chain the source prints before repeating its
first element; `missingColor` is the "could not find color" report (also
produced by `ResolvedPalette::lookup`); `playerStyleTarget` is the
"`style.player` cannot be modified" report of `apply_action`;
`syntaxMapLost` is the "Could not get syntax map" report of
`process_syntax_path`.  `outOfFuel` is an artifact of the fuelled embedding
of the recursive resolver and is unreachable at the fuel `resolve` uses. -/
inductive ZErr where
  | selfCycle (name : String)
  | cycle (chain : List String)
  | missingColor (name : String)
  | playerStyleTarget (path : String)
  | syntaxMapLost
  | outOfFuel
deriving DecidableEq

/-- `Palette::resolve_color`: depth-first resolution of one entry with
memoization (`resolutions`) and the current dependency stack (`deps`).
The source recursion terminates because every pushed name is distinct and
drawn from the palette's keys; the embedding makes that explicit with a fuel
argument (`resolve` passes `p.length + 1`, which is proved sufficient). -/
def resolveColor (E : Ext) (p : List (String × Color)) :
    Nat → String → Color → List (String × HexColor) → List String →
    Except ZErr (HexColor × List (String × HexColor))
  | 0, _, _, _, _ => .error .outOfFuel
  | fuel + 1, name, color, resolutions, deps =>
    match List.lookup name resolutions with
    | some c => .ok (c, resolutions)
    | none =>
      match List.findIdx? (· == name) deps with
      | some idx =>
        let chain := deps.drop idx
        if chain.length ≤ 1 then .error (.selfCycle name)
        else .error (.cycle chain)
      | none =>
        let deps' := deps ++ [name]
        let step : Except ZErr (HexColor × List (String × HexColor)) :=
          match color.base with
          | .hex h => .ok (h, resolutions)
          | .paletteReference r =>
            match List.lookup r p with
            | none => .error (.missingColor r)
            | some depColor => resolveColor E p fuel r depColor resolutions deps'
        step.bind fun rm =>
          let modified := E.applyModifiers rm.1 color.modifiers
          .ok (modified, (name, modified) :: rm.2)

/-- `Palette::resolve`: resolve every top-level entry in iteration order,
sharing the memo table and clearing the dependency stack between entries. -/
def resolve (E : Ext) (p : List (String × Color)) :
    Except ZErr (List (String × HexColor)) :=
  p.foldlM
    (fun resolutions pr =>
      (resolveColor E p (p.length + 1) pr.1 pr.2 resolutions []).map (·.2))
    []

/-- `ResolvedPalette::lookup`: resolve one ad-hoc `Color` against an already
resolved palette and apply its own modifiers. -/
def lookupResolved (E : Ext) (resolved : List (String × HexColor))
    (c : Color) : Except ZErr HexColor :=
  match c.base with
  | .hex h => .ok (E.applyModifiers h c.modifiers)
  | .paletteReference r =>
    match List.lookup r resolved with
    | some h => .ok (E.applyModifiers h c.modifiers)
    | none => .error (.missingColor r)

/-! ## Palette synthesis (`PaletteGenerator` in `src/color/palette.rs`) -/

/-- State of `PaletteGenerator`: the `BiMap<[u8; 3], String>`, as the list of
its pairs (both projections are kept duplicate-free by construction). -/
structure PaletteGenerator where
  rgbToName : List ((Nat × Nat × Nat) × String)
deriving DecidableEq

/-- First pair holding a given name, mirroring `BiMap::get_by_right`. -/
def getByRight (m : List ((Nat × Nat × Nat) × String)) (name : String) :
    Option (Nat × Nat × Nat) :=
  (m.find? (fun pr => pr.2 == name)).map (·.1)

/-- `BiMap::insert`: any pair colliding on either side is removed, then the
new pair is added. -/
def bimapInsert (m : List ((Nat × Nat × Nat) × String))
    (rgb : Nat × Nat × Nat) (name : String) :
    List ((Nat × Nat × Nat) × String) :=
  m.filter (fun pr => pr.1 ≠ rgb ∧ pr.2 ≠ name) ++ [(rgb, name)]

/-- Leading and trailing whitespace removed, as Rust `str::trim`. -/
def trimChars (cs : List Char) : List Char :=
  ((cs.dropWhile Char.isWhitespace).reverse.dropWhile Char.isWhitespace).reverse

/-- The name-munging `feed` applies to the `colornamer` output:
`.to_lowercase().trim().replace(' ', "-")`, spelled out on the character
list (the replaced pattern is a single character, so `replace` is a map). -/
def muntName (raw : String) : String :=
  String.mk ((trimChars (raw.data.map Char.toLower)).map fun ch =>
    if ch = ' ' then '-' else ch)

/-- The disambiguation loop of `feed`: try `base`, then `base-1`, `base-2`,
…, until the candidate is unused or already owned by this very triple.  The
source loop terminates because the map is finite; the embedding runs it on
fuel (`feed` passes one more than the map's size). -/
def disambiguate (m : List ((Nat × Nat × Nat) × String))
    (rgb : Nat × Nat × Nat) (base : String) :
    Nat → Nat → String → String
  | 0, _, cur => cur
  | fuel + 1, idx, cur =>
    match getByRight m cur with
    | none => cur
    | some rgb' =>
      if rgb' = rgb then cur
      else disambiguate m rgb base fuel (idx + 1) (base ++ "-" ++ toString idx)

/-- `PaletteGenerator::feed`. -/
def PaletteGenerator.feed (E : Ext) (g : PaletteGenerator) (c : HexColor) :
    PaletteGenerator :=
  let rgb := (c.r, c.g, c.b)
  if (g.rgbToName.find? (fun pr => pr.1 = rgb)).isSome then g
  else
    let base := muntName (E.nameColor rgb)
    let name2 := disambiguate g.rgbToName rgb base (g.rgbToName.length + 1) 1 base
    ⟨bimapInsert g.rgbToName rgb name2⟩

/-- `PaletteGenerator::lookup`: a reference plus an `alpha` modifier when the
triple is named, the literal colour otherwise. -/
def PaletteGenerator.lookup (E : Ext) (g : PaletteGenerator) (c : HexColor) :
    Color :=
  let rgb := (c.r, c.g, c.b)
  match g.rgbToName.find? (fun pr => pr.1 = rgb) with
  | some pr =>
    { base := .paletteReference pr.2
      modifiers := { alpha := if c.a ≠ 255 then some (E.alphaToModifier c.a) else none } }
  | none => { base := .hex c }

/-- `PaletteGenerator::into_resolved_palette`: every named triple becomes an
opaque entry. -/
def PaletteGenerator.intoResolvedPalette (g : PaletteGenerator) :
    List (String × HexColor) :=
  g.rgbToName.map fun pr => (pr.2, ⟨pr.1.1, pr.1.2.1, pr.1.2.2, 255⟩)

/-! ## Data model of the authored (KDL) and flat (JSON) forms
(`src/schema/kdl.rs`, `src/schema/json.rs`) -/

/-- `Appearance` from `src/schema.rs`. -/
inductive Appearance where
  | light
  | dark
deriving DecidableEq

/-- `Meta` from `src/schema.rs`. -/
structure Meta where
  name : String
  author : String
deriving DecidableEq

/-- `ModifierPath` from `src/schema/kdl.rs` (the `Syntax` constructor is
spelled `syntaxScope` here). -/
inductive ModifierPath where
  | style (path : String)
  | syntaxScope (name : String)
deriving DecidableEq

/-- `Action` from `src/schema/kdl.rs`: a bundle of optional edits. -/
structure Action where
  color : Option Color := none
  background : Option Color := none
  fontWeight : Option Nat := none
  fontStyle : Option String := none
deriving DecidableEq

/-- The Rust derived `PartialEq` on `Action` (optional `Color`s compare with
`Color.beqRust`, so NaN modifier fields make an action unequal to itself). -/
def Action.beqRust (x y : Action) : Bool :=
  (match x.color, y.color with
   | none, none => true
   | some a, some b => Color.beqRust a b
   | _, _ => false) &&
  (match x.background, y.background with
   | none, none => true
   | some a, some b => Color.beqRust a b
   | _, _ => false) &&
  (x.fontWeight == y.fontWeight) && (x.fontStyle == y.fontStyle)

/-- `Modifier` from `src/schema/kdl.rs`. -/
structure Modifier where
  apply : List ModifierPath
  action : Action
deriving DecidableEq

/-- `Player` (KDL side) from `src/schema/kdl.rs`. -/
structure Player where
  cursor : Option Color := none
  background : Option Color := none
  selection : Option Color := none
deriving DecidableEq

/-- The Rust derived `PartialEq` on `Player`. -/
def Player.beqRust (x y : Player) : Bool :=
  (match x.cursor, y.cursor with
   | none, none => true
   | some a, some b => Color.beqRust a b
   | _, _ => false) &&
  (match x.background, y.background with
   | none, none => true
   | some a, some b => Color.beqRust a b
   | _, _ => false) &&
  (match x.selection, y.selection with
   | none, none => true
   | some a, some b => Color.beqRust a b
   | _, _ => false)

/-- `Theme` from `src/schema/kdl.rs`. -/
structure Theme where
  name : String
  appearance : Appearance
  players : List Player
  modifiers : List Modifier
deriving DecidableEq

/-- `ThemeFamily` from `src/schema/kdl.rs`.  `RawPalette::into_palette`
collects the palette nodes into a `HashMap`; the association list keeps the
node order. -/
structure ThemeFamily where
  meta : Meta
  palette : List (String × Color)
  themes : List Theme
  common : Option Theme
deriving DecidableEq

/-- `Syntax` (flat side) from `src/schema/json.rs`; named `SyntaxStyle` here. -/
structure SyntaxStyle where
  color : Option HexColor := none
  background : Option HexColor := none
  fontWeight : Option Nat := none
  fontStyle : Option String := none
deriving DecidableEq

/-- `Player` (flat side) from `src/schema/json.rs`. -/
structure JsonPlayer where
  cursor : Option HexColor := none
  background : Option HexColor := none
  selection : Option HexColor := none
deriving DecidableEq

/-- `StyleEntry` from `src/schema/json.rs` (the `Syntax` constructor is
spelled `syntaxMap` here). -/
inductive StyleEntry where
  | syntaxMap (entries : List (String × SyntaxStyle))
  | players (entries : List JsonPlayer)
  | normal (color : Option HexColor)
deriving DecidableEq

/-- `JsonTheme` from `src/schema/json.rs`; the `style` map is an association
list (list order standing in for `HashMap` iteration order). -/
structure JsonTheme where
  name : String
  appearance : Appearance
  style : List (String × StyleEntry)
deriving DecidableEq

/-- `ThemeFamily` (flat side) from `src/schema/json.rs`. -/
structure JsonThemeFamily where
  schema : String
  meta : Meta
  themes : List JsonTheme
deriving DecidableEq

/-- `Theme::merge`: the `bottom` (common) theme's modifiers and players come
first, the theme's own follow and therefore override. -/
def Theme.merge (t bottom : Theme) : Theme :=
  { t with
    modifiers := bottom.modifiers ++ t.modifiers
    players := bottom.players ++ t.players }

/-- Association-list update with `HashMap::insert` semantics: an existing
key's value is replaced in place, a new key is appended. -/
def insertAssoc {α : Type} (m : List (String × α)) (k : String) (v : α) :
    List (String × α) :=
  if m.any (fun pr => pr.1 == k) then
    m.map (fun pr => if pr.1 == k then (k, v) else pr)
  else m ++ [(k, v)]

/-! ## Forward pipeline (`src/generate/json.rs`) -/

/-- The per-entry effect of `process_syntax_path`: set `color`/`background`
only when the action carries them, then copy `font_style`/`font_weight` from
the action unconditionally (this is exactly what the source does:
`syntax_entry.font_style.clone_from(&action.font_style);
syntax_entry.font_weight = action.font_weight;`). -/
def applySyntaxAction (E : Ext) (resolved : List (String × HexColor))
    (entry : SyntaxStyle) (action : Action) : Except ZErr SyntaxStyle :=
  (match action.color with
   | some c => (lookupResolved E resolved c).map fun h => { entry with color := some h }
   | none => .ok entry).bind fun entry =>
  (match action.background with
   | some c => (lookupResolved E resolved c).map fun h => { entry with background := some h }
   | none => .ok entry).bind fun entry =>
  .ok { entry with fontStyle := action.fontStyle, fontWeight := action.fontWeight }

/-- `process_syntax_path`: get-or-create the syntax entry at `path` and apply
the action's edits to it. -/
def processSyntaxPath (E : Ext) (resolved : List (String × HexColor))
    (action : Action) (base : JsonTheme) (path : String) :
    Except ZErr JsonTheme :=
  match List.lookup "syntax" base.style with
  | some (.syntaxMap m) =>
    (applySyntaxAction E resolved ((List.lookup path m).getD {}) action).map fun entry =>
      { base with style := insertAssoc base.style "syntax" (.syntaxMap (insertAssoc m path entry)) }
  | _ => .error .syntaxMapLost

/-- `apply_action`: flat `Style(path)` targets reject the reserved `player`
prefix and accept only the `color` field; `Syntax(name)` targets go through
`process_syntax_path`. -/
def applyAction (E : Ext) (resolved : List (String × HexColor))
    (base : JsonTheme) (action : Action) :
    ModifierPath → Except ZErr JsonTheme
  | .style path =>
    if path.startsWith "player" then .error (.playerStyleTarget path)
    else
      match action.color with
      | some c =>
        (lookupResolved E resolved c).map fun h =>
          { base with style := insertAssoc base.style path (.normal (some h)) }
      | none => .ok base
  | .syntaxScope tail => processSyntaxPath E resolved action base tail

/-- The modifier loop of `generate_json`: every modifier in list order, every
target of its `apply` list in order. -/
def applyModifierList (E : Ext) (resolved : List (String × HexColor))
    (mods : List Modifier) (t : JsonTheme) : Except ZErr JsonTheme :=
  mods.foldlM
    (fun th m => m.apply.foldlM (fun th2 target => applyAction E resolved th2 m.action target) th)
    t

/-- The `process` closure of `generate_json`, lifted over an optional colour. -/
def processOpt (E : Ext) (resolved : List (String × HexColor)) :
    Option Color → Except ZErr (Option HexColor)
  | none => .ok none
  | some c => (lookupResolved E resolved c).map some

/-- One theme's translation inside `generate_json`: translate the players,
seed the style map with the `players` and empty `syntax` entries, then apply
all modifiers. -/
def translateThemeJson (E : Ext) (resolved : List (String × HexColor))
    (t : Theme) : Except ZErr JsonTheme :=
  (t.players.mapM fun pl =>
    (processOpt E resolved pl.cursor).bind fun cur =>
    (processOpt E resolved pl.selection).bind fun sel =>
    (processOpt E resolved pl.background).map fun bg =>
      ({ cursor := cur, selection := sel, background := bg } : JsonPlayer)).bind
  fun players =>
    applyModifierList E resolved t.modifiers
      { name := t.name
        appearance := t.appearance
        style := [("players", .players players), ("syntax", .syntaxMap [])] }

/-- The fixed `$schema` URI `generate_json` stamps on its output. -/
def schemaUri : String := "https://zed.dev/schema/themes/v0.1.0.json"

/-- `generate_json`: resolve the palette once, merge `common` into every
theme, then translate each theme. -/
def generateJson (E : Ext) (family : ThemeFamily) :
    Except ZErr JsonThemeFamily :=
  (resolve E family.palette).bind fun resolved =>
    let themes :=
      match family.common with
      | some c => family.themes.map (fun t => Theme.merge t c)
      | none => family.themes
    (themes.mapM (translateThemeJson E resolved)).map fun jts =>
      { schema := schemaUri, meta := family.meta, themes := jts }

/-! ## Reverse pipeline (`src/generate/kdl.rs`, `src/schema/kdl.rs`) -/

/-- The `StyleVisitor` trait: a state type and one function per callback
(each defaults to the identity in the source; implementations override the
ones they need). -/
structure StyleVisitor (σ : Type) where
  visitSyntaxEntry : σ → ModifierPath → SyntaxStyle → σ := fun s _ _ => s
  visitColor : σ → Option ModifierPath → HexColor → σ := fun s _ _ => s
  visitFontWeight : σ → ModifierPath → Nat → σ := fun s _ _ => s
  visitFontStyle : σ → ModifierPath → String → σ := fun s _ _ => s

/-- One `(key, value)` step of `visit_styles`.  Note that a syntax entry's
`background` is fed to `visit_color`, exactly as in the source. -/
def visitEntry {σ : Type} (v : StyleVisitor σ) (s : σ) :
    String × StyleEntry → σ
  | (key, .normal (some c)) => v.visitColor s (some (.style key)) c
  | (_, .normal none) => s
  | (_, .players ps) =>
    ps.foldl
      (fun st p =>
        let st := match p.cursor with
          | some c => v.visitColor st none c
          | none => st
        let st := match p.background with
          | some c => v.visitColor st none c
          | none => st
        match p.selection with
        | some c => v.visitColor st none c
        | none => st)
      s
  | (_, .syntaxMap m) =>
    m.foldl
      (fun st pr =>
        let path := ModifierPath.syntaxScope pr.1
        let st := v.visitSyntaxEntry st path pr.2
        let st := match pr.2.color with
          | some c => v.visitColor st (some path) c
          | none => st
        let st := match pr.2.background with
          | some c => v.visitColor st (some path) c
          | none => st
        let st := match pr.2.fontStyle with
          | some fs => v.visitFontStyle st path fs
          | none => st
        match pr.2.fontWeight with
        | some w => v.visitFontWeight st path w
        | none => st)
      s

/-- `visit_styles`: fold a visitor over every entry of a flat style map. -/
def visitStyles {σ : Type} (v : StyleVisitor σ) (s : σ)
    (map : List (String × StyleEntry)) : σ :=
  map.foldl (visitEntry v) s

/-- `ColorVisitor`: feeds every visited colour into a `PaletteGenerator`. -/
def colorVisitor (E : Ext) : StyleVisitor PaletteGenerator :=
  { visitColor := fun g _ c => g.feed E c }

/-- `multimap::MultiMap` insertion keyed by an explicit boolean equality:
an existing key's vector grows, a new key starts a fresh vector. -/
def mmInsert {κ π : Type} (eq : κ → κ → Bool) (m : List (κ × List π))
    (k : κ) (v : π) : List (κ × List π) :=
  if m.any (fun pr => eq pr.1 k) then
    m.map (fun pr => if eq pr.1 k then (pr.1, pr.2 ++ [v]) else pr)
  else m ++ [(k, [v])]

/-- State of `ModifierVisitor`: the four groupings.  The `background`
grouping exists in the source but is never written to (the struct field is
dead): `visit_styles` reports syntax backgrounds through `visit_color` and
the trait has no background callback. -/
structure ModifierVisitorState where
  colors : List (Color × List ModifierPath) := []
  background : List (Color × List ModifierPath) := []
  fontWeight : List (Nat × List ModifierPath) := []
  fontStyle : List (String × List ModifierPath) := []
deriving DecidableEq

/-- `impl StyleVisitor for ModifierVisitor`: pathless colours are dropped,
pathed colours are translated through the generator and grouped by value;
font style and weight are grouped directly. -/
def modifierVisitor (E : Ext) (g : PaletteGenerator) :
    StyleVisitor ModifierVisitorState :=
  { visitColor := fun st path? c =>
      match path? with
      | none => st
      | some path =>
        { st with colors := mmInsert Color.beqRust st.colors (g.lookup E c) path }
    visitFontStyle := fun st path fs =>
      { st with fontStyle := mmInsert (fun a b => a == b) st.fontStyle fs path }
    visitFontWeight := fun st path w =>
      { st with fontWeight := mmInsert (fun a b => a == b) st.fontWeight w path } }

/-- `ModifierVisitor::into_modifiers`: one modifier per `(kind, value)`
group, colours first, then backgrounds, then font styles, then font
weights. -/
def intoModifiers (st : ModifierVisitorState) : List Modifier :=
  (st.colors.map fun pr => { apply := pr.2, action := { color := some pr.1 } }) ++
  (st.background.map fun pr => { apply := pr.2, action := { background := some pr.1 } }) ++
  (st.fontStyle.map fun pr => { apply := pr.2, action := { fontStyle := some pr.1 } }) ++
  (st.fontWeight.map fun pr => { apply := pr.2, action := { fontWeight := some pr.1 } })

/-- Last value collected for a Rust-equal key, mirroring what a
`HashMap::from_iter`-style collection leaves behind when later inserts
overwrite earlier ones.  (With NaN-carrying keys the Rust map can hold
several never-equal copies; the claims never exercise that corner.) -/
def lookupByBeq {α : Type} (eq : Action → Action → Bool)
    (m : List (Action × α)) (a : Action) : Option α :=
  ((m.filter (fun pr => eq pr.1 a)).getLast?).map (·.2)

/-- The `(action, apply)` map `extract_common` builds from a theme's
modifier list. -/
def collectModMap (mods : List Modifier) : List (Action × List ModifierPath) :=
  mods.map fun m => (m.action, m.apply)

/-- `Theme::discard_intersection`. -/
def Theme.discardIntersection (t : Theme) (players : List Player)
    (inter : List (Action × List ModifierPath)) : Theme :=
  let mods :=
    (t.modifiers.map fun m =>
      match lookupByBeq Action.beqRust inter m.action with
      | some cut => { m with apply := m.apply.filter (fun x => ¬ cut.contains x) }
      | none => m).filter fun m => ¬ m.apply.isEmpty
  { t with
    modifiers := mods
    players := t.players.filter fun p => ¬ players.any (Player.beqRust p) }

/-- `Theme::extract_common`: returns `(common, self', other')`, the source
mutating `self` and `other` in place. -/
def Theme.extractCommon (t other : Theme) : Theme × Theme × Theme :=
  let playerIntersect := t.players.filter fun p => other.players.any (Player.beqRust p)
  let thisM := collectModMap t.modifiers
  let otherM := collectModMap other.modifiers
  let inter :=
    (thisM.filterMap fun pr =>
      (lookupByBeq Action.beqRust otherM pr.1).map fun op =>
        (pr.1, pr.2.filter (fun x => op.contains x))).filter
      fun pr => ¬ pr.2.isEmpty
  let t' := t.discardIntersection playerIntersect inter
  let o' := other.discardIntersection playerIntersect inter
  ({ name := "common"
     appearance := .dark
     players := playerIntersect
     modifiers := inter.map fun pr => { action := pr.1, apply := pr.2 } },
   t', o')

/-- `ResolvedPalette::into_raw_palette`: literal entries with no modifiers,
sorted by name. -/
def intoRawPalette (rp : List (String × HexColor)) : List (String × Color) :=
  ((rp.map fun pr => (pr.1, ({ base := .hex pr.2 } : Color))).mergeSort
    fun x y => x.1 ≤ y.1)

/-- The per-theme translation loop of `generate_kdl` (players via the
generator's `lookup`, modifiers from a fresh `ModifierVisitor` pass). -/
def translateThemeKdl (E : Ext) (g : PaletteGenerator) (th : JsonTheme) :
    Theme :=
  let players :=
    match List.lookup "players" th.style with
    | some (.players ps) =>
      ps.map fun p =>
        ({ cursor := p.cursor.map (g.lookup E)
           selection := p.selection.map (g.lookup E)
           background := p.background.map (g.lookup E) } : Player)
    | _ => []
  let st := visitStyles (modifierVisitor E g) {} th.style
  { name := th.name
    appearance := th.appearance
    players := players
    modifiers := intoModifiers st }

/-- The naming pass of `generate_kdl`: one shared `ColorVisitor` traversal
of every theme's style map. -/
def namingPass (E : Ext) (tf : JsonThemeFamily) : PaletteGenerator :=
  tf.themes.foldl (fun g th => visitStyles (colorVisitor E) g th.style)
    (⟨[]⟩ : PaletteGenerator)

/-- The translated theme list of `generate_kdl`, before common extraction. -/
def kdlThemes (E : Ext) (tf : JsonThemeFamily) : List Theme :=
  tf.themes.map (translateThemeKdl E (namingPass E tf))

/-- `generate_kdl`: one naming pass over every theme (shared generator),
then per-theme translation, then common extraction exactly when the family
has two themes (three or more only warns; zero or one does nothing). -/
def generateKdl (E : Ext) (tf : JsonThemeFamily) : ThemeFamily :=
  let g := namingPass E tf
  let themes := kdlThemes E tf
  let palette := intoRawPalette g.intoResolvedPalette
  match themes with
  | [t1, t2] =>
    let ex := t1.extractCommon t2
    { meta := tf.meta, palette := palette, themes := [ex.2.1, ex.2.2], common := some ex.1 }
  | _ => { meta := tf.meta, palette := palette, themes := themes, common := none }

/-! ## Hex colour parsing (`parse_hex_color` in `src/color/color.rs`)

The source reads the bytes after `#` into a single `u64` (little-endian; the
big-endian branch of the source computes the same value) and validates and
converts all eight hexadecimal digits branchlessly.  The `u64` is a `Nat`
and every wrapping operation carries an explicit `% 2 ^ 64`. -/

/-- Value of a little-endian byte list. -/
def ofBytesLE : List Nat → Nat
  | [] => 0
  | b :: bs => b + 256 * ofBytesLE bs

/-- `u64` modulus. -/
def u64Mod : Nat := 2 ^ 64

/-- `u64::wrapping_sub`. -/
def wsub (x y : Nat) : Nat := (x + (u64Mod - y % u64Mod)) % u64Mod

/-- `u64::wrapping_add`. -/
def wadd (x y : Nat) : Nat := (x + y) % u64Mod

/-- `u64::wrapping_mul`. -/
def wmul (x y : Nat) : Nat := x * y % u64Mod

/-- `QUARTER_HEXY_DEVIL`: two ASCII `f` bytes in the top lanes. -/
def quarterHexyDevil : Nat := 0x6666000000000000

/-- `ZERO`: the ASCII digit `0` in every lane. -/
def zeroLanes : Nat := 0x3030303030303030

/-- `SIXTEEN`: `0x10` in every lane. -/
def sixteenLanes : Nat := 0x1010101010101010

/-- `parse_hex_color`, on the UTF-8 bytes of the input string.  `input.len()`
in the source is the byte length; the unsafe unaligned reads become
`ofBytesLE` of the corresponding byte slices, and `to_le()` is the identity
of the little-endian model. -/
def parseHexColor (input : List Nat) : Option HexColor :=
  if input.length ≠ 7 ∧ input.length ≠ 9 then none
  else
    match input with
    | [] => none
    | b0 :: rest =>
      if b0 ≠ 0x23 then none
      else
        let data0 : Nat :=
          if input.length = 9 then ofBytesLE rest
          else
            ofBytesLE (rest.take 4) |||
              (ofBytesLE ((rest.drop 2).take 4) <<< 16) ||| quarterHexyDevil
        let d1 := wsub data0 zeroLanes
        let aboveNine := (d1 ||| wadd d1 (zeroLanes >>> 3)) &&& sixteenLanes
        let d2 := d1 ||| (aboveNine <<< 1)
        let d3 := wsub d2 (wmul (aboveNine >>> 4) 0x27)
        let d4 := d3 ||| (wsub 0x19f9f9f9f9f9f9f9 d3 &&& aboveNine)
        if d4 &&& 0xf0f0f0f0f0f0f0f0 ≠ 0 then none
        else
          let d5 := (d4 >>> 8) ||| (d4 <<< 4 % u64Mod)
          let d6 := d5 &&& 0x00ff00ff00ff00ff
          let d7 := d6 ||| (d6 >>> 8)
          let d8 := d7 &&& 0x0000ffff0000ffff
          let d9 := d8 ||| (d8 >>> 16)
          let out := d9 % 2 ^ 32
          some ⟨out % 256, out / 256 % 256, out / 256 ^ 2 % 256, out / 256 ^ 3 % 256⟩

/-- Value of one ASCII hexadecimal digit: `0-9`, `A-F`, `a-f`. -/
def hexDigitVal? (b : Nat) : Option Nat :=
  if 0x30 ≤ b ∧ b ≤ 0x39 then some (b - 0x30)
  else if 0x41 ≤ b ∧ b ≤ 0x46 then some (b - 0x41 + 10)
  else if 0x61 ≤ b ∧ b ≤ 0x66 then some (b - 0x61 + 10)
  else none

/-- The colour spelled by a list of six or eight hexadecimal digit values
(consecutive pairs; alpha `0xff` when only six digits are given). -/
def colorOfNibbles : List Nat → Option HexColor
  | [n1, n2, n3, n4, n5, n6] =>
    some ⟨16 * n1 + n2, 16 * n3 + n4, 16 * n5 + n6, 0xff⟩
  | [n1, n2, n3, n4, n5, n6, n7, n8] =>
    some ⟨16 * n1 + n2, 16 * n3 + n4, 16 * n5 + n6, 16 * n7 + n8⟩
  | _ => none

/-! ### Byte-lane model of the branchless hex pipeline

`parseHexColor` computes on a whole `u64`; the analysis below re-expresses
every step on the little-endian byte lanes, with the three subtractions and
the one addition carried out lane by lane with an explicit borrow/carry
ripple.  `pipeline` fuses the whole digit-extraction phase into a single
per-lane pass threading the four ripple chains. -/

/-- Lane-by-lane little-endian subtraction with a ripple borrow (`bin`,
either `0` or `1`).  Each output lane is reduced `% 256`. -/
def rippleSub : List Nat → List Nat → Nat → List Nat
  | [], _, _ => []
  | x :: xs, ys, bin =>
    (x + 256 - (ys.headD 0 + bin)) % 256 ::
      rippleSub xs ys.tail (1 - (x + 256 - (ys.headD 0 + bin)) / 256)

/-- Lane-by-lane little-endian addition with a ripple carry (`cin`). -/
def rippleAdd : List Nat → List Nat → Nat → List Nat
  | [], _, _ => []
  | x :: xs, ys, cin =>
    (x + ys.headD 0 + cin) % 256 ::
      rippleAdd xs ys.tail ((x + ys.headD 0 + cin) / 256)

/-- One lane of `data.wrapping_sub(ZERO)`: the digit guess. -/
def laneB1 (b bin1 : Nat) : Nat := (b + 256 - (48 + bin1)) % 256

/-- Borrow out of one lane of `data.wrapping_sub(ZERO)`. -/
def laneB1out (b bin1 : Nat) : Nat := 1 - (b + 256 - (48 + bin1)) / 256

/-- One lane of `above_nine`: `(t | (t + 6 + carry)) & 0x10`. -/
def laneA (t cin2 : Nat) : Nat := (t ||| (t + 6 + cin2) % 256) &&& 16

/-- Carry out of one lane of `data.wrapping_add(ZERO >> 3)`. -/
def laneAout (t cin2 : Nat) : Nat := (t + 6 + cin2) / 256

/-- One lane after the letter adjustment: lowercasing bit then
`wrapping_sub((above_nine >> 4) * 0x27)`. -/
def laneB3 (t a bin3 : Nat) : Nat :=
  ((t ||| 2 * a) + 256 - (39 * (a / 16) + bin3)) % 256

/-- Borrow out of one lane of the letter adjustment subtraction. -/
def laneB3out (t a bin3 : Nat) : Nat :=
  1 - ((t ||| 2 * a) + 256 - (39 * (a / 16) + bin3)) / 256

/-- One lane of the defensive `0x19f9….wrapping_sub(data)`. -/
def laneD (cdf t3 bindf : Nat) : Nat := (cdf + 256 - (t3 + bindf)) % 256

/-- Borrow out of one lane of the defensive subtraction. -/
def laneDout (cdf t3 bindf : Nat) : Nat := 1 - (cdf + 256 - (t3 + bindf)) / 256

/-- The full digit-extraction phase of one lane, given the lane's byte `b`,
its byte `cdf` of the defensive constant, and the four incoming
borrows/carries. -/
def laneOut (b cdf bin1 cin2 bin3 bindf : Nat) : Nat :=
  let t1 := laneB1 b bin1
  let a := laneA t1 cin2
  let t3 := laneB3 t1 a bin3
  t3 ||| laneD cdf t3 bindf &&& a

/-- The digit-extraction phase on all lanes, threading the four ripple
chains from lane to lane. -/
def pipeline : List Nat → List Nat → Nat → Nat → Nat → Nat → List Nat
  | [], _, _, _, _, _ => []
  | b :: bs, cs, bin1, cin2, bin3, bindf =>
    let t1 := laneB1 b bin1
    let a := laneA t1 cin2
    let t3 := laneB3 t1 a bin3
    (t3 ||| laneD (cs.headD 0) t3 bindf &&& a) ::
      pipeline bs cs.tail (laneB1out b bin1) (laneAout t1 cin2)
        (laneB3out t1 a bin3) (laneDout (cs.headD 0) t3 bindf)

/-- The digit-extraction phase written stage by stage on the byte lanes,
mirroring the `u64` computation of `parseHexColor` one whole-list operation
at a time.  `pipeline` computes the same lanes in a single pass. -/
def stagedLanes (bs cs : List Nat) (bin1 cin2 bin3 bindf : Nat) : List Nat :=
  let b1 := rippleSub bs (List.replicate bs.length 48) bin1
  let a2 := rippleAdd b1 (List.replicate bs.length 6) cin2
  let ab := List.zipWith (· &&& ·) (List.zipWith (· ||| ·) b1 a2)
    (List.replicate bs.length 16)
  let b2 := List.zipWith (· ||| ·) b1 (ab.map fun a => 2 * a)
  let m3 := ab.map fun a => 39 * (a / 16)
  let b3 := rippleSub b2 m3 bin3
  let d := rippleSub cs b3 bindf
  List.zipWith (· ||| ·) b3 (List.zipWith (· &&& ·) d ab)

/-- The defensive constant `0x19f9f9f9f9f9f9f9` as little-endian lanes. -/
def hexConst : List Nat := [0xf9, 0xf9, 0xf9, 0xf9, 0xf9, 0xf9, 0xf9, 0x19]

/-- Whether a byte is an ASCII hexadecimal digit. -/
def isHexDigit (b : Nat) : Bool := (hexDigitVal? b).isSome

/-- `hexDigitVal?` with default `0`. -/
def hexVal (b : Nat) : Nat := (hexDigitVal? b).getD 0

/-- Everything `parseHexColor` does after assembling the eight data bytes
into a `u64`: digit extraction, validity check, nybble deinterleave. -/
def hexTail (data0 : Nat) : Option HexColor :=
  let d1 := wsub data0 zeroLanes
  let aboveNine := (d1 ||| wadd d1 (zeroLanes >>> 3)) &&& sixteenLanes
  let d2 := d1 ||| (aboveNine <<< 1)
  let d3 := wsub d2 (wmul (aboveNine >>> 4) 0x27)
  let d4 := d3 ||| (wsub 0x19f9f9f9f9f9f9f9 d3 &&& aboveNine)
  if d4 &&& 0xf0f0f0f0f0f0f0f0 ≠ 0 then none
  else
    let d5 := (d4 >>> 8) ||| (d4 <<< 4 % u64Mod)
    let d6 := d5 &&& 0x00ff00ff00ff00ff
    let d7 := d6 ||| (d6 >>> 8)
    let d8 := d7 &&& 0x0000ffff0000ffff
    let d9 := d8 ||| (d8 >>> 16)
    let out := d9 % 2 ^ 32
    some ⟨out % 256, out / 256 % 256, out / 256 ^ 2 % 256, out / 256 ^ 3 % 256⟩

/-- `hexTail`, with the digit-extraction phase replaced by its byte-lane
lanes: the overflow test becomes a per-lane high-nybble test and the
deinterleave works on the value of the lanes. -/
def hexTailLanes (lanes : List Nat) : Option HexColor :=
  if ofBytesLE (lanes.map fun l => l &&& 0xf0) ≠ 0 then none
  else
    let d4 := ofBytesLE lanes
    let d5 := (d4 >>> 8) ||| (d4 <<< 4 % u64Mod)
    let d6 := d5 &&& 0x00ff00ff00ff00ff
    let d7 := d6 ||| (d6 >>> 8)
    let d8 := d7 &&& 0x0000ffff0000ffff
    let d9 := d8 ||| (d8 >>> 16)
    let out := d9 % 2 ^ 32
    some ⟨out % 256, out / 256 % 256, out / 256 ^ 2 % 256, out / 256 ^ 3 % 256⟩

/-! ## Specification-side definitions and concrete inputs used by the
theorems below -/

/-- Propositional reading of IEEE-754 `f32` equality: neither side NaN, and
either the bit patterns agree or both sides are (possibly differently
signed) zeros. -/
def F32.EqSpec (a b : F32) : Prop :=
  a.isNan = false ∧ b.isNan = false ∧
    (a.bits = b.bits ∨ (a.isZero = true ∧ b.isZero = true))

/-- Lift of `F32.EqSpec` to an optional field. -/
def OptF32EqSpec : Option F32 → Option F32 → Prop
  | none, none => True
  | some a, some b => F32.EqSpec a b
  | _, _ => False

/-- The flattened `(action, target)` application sequence of a modifier
list, in the order `generate_json` performs the writes. -/
def pairsOf (mods : List Modifier) : List (Action × ModifierPath) :=
  mods.flatMap fun m => m.apply.map fun target => (m.action, target)

/-- Actions of a flattened application sequence aimed at the syntax scope
`s`, in application order. -/
def actionsAtPairs (s : String) : List (Action × ModifierPath) → List Action
  | [] => []
  | pa :: rest =>
    if pa.2 = ModifierPath.syntaxScope s then pa.1 :: actionsAtPairs s rest
    else actionsAtPairs s rest

/-- The subsequence of actions a modifier list applies to the syntax scope
`s`, in application order. -/
def actionsAt (mods : List Modifier) (s : String) : List Action :=
  actionsAtPairs s (pairsOf mods)

/-- Sequential application of a list of actions to one (optional) syntax
entry, each get-or-creating the entry exactly as `process_syntax_path`
does. -/
def applySyntaxActionChain (E : Ext) (resolved : List (String × HexColor)) :
    List Action → Option SyntaxStyle → Except ZErr (Option SyntaxStyle)
  | [], cur => .ok cur
  | a :: acts, cur =>
    (applySyntaxAction E resolved (cur.getD {}) a).bind fun e =>
      applySyntaxActionChain E resolved acts (some e)

/-- Spec-side evolution of the syntax map under a flattened application
sequence (flat-style writes do not touch it). -/
def syntaxFold (E : Ext) (resolved : List (String × HexColor))
    (pairs : List (Action × ModifierPath))
    (m : List (String × SyntaxStyle)) :
    Except ZErr (List (String × SyntaxStyle)) :=
  pairs.foldlM
    (fun m pa =>
      match pa.2 with
      | .syntaxScope s =>
        (applySyntaxAction E resolved ((List.lookup s m).getD {}) pa.1).map
          (insertAssoc m s)
      | .style _ => .ok m)
    m

/-- Dereference one palette entry to the entry it references, if any. -/
def deref (p : List (String × Color)) (n : String) : Option String :=
  match List.lookup n p with
  | some c =>
    match c.base with
    | .paletteReference r => some r
    | .hex _ => none
  | none => none

/-- Iterated `deref`. -/
def followN (p : List (String × Color)) : Nat → String → Option String
  | 0, n => some n
  | k + 1, n => (deref p n).bind (followN p k)

/-- An entry transitively depends on itself: some positive number of
reference steps leads back to it. -/
def CyclicAt (p : List (String × Color)) (n : String) : Prop :=
  ∃ k, 1 ≤ k ∧ followN p k n = some n

/-- Names whose reference chain reaches a literal base through the palette;
every name the resolver ever memoizes is of this kind. -/
inductive Terminating (p : List (String × Color)) : String → Prop where
  | hex (n : String) (c : Color) (h : HexColor) :
      List.lookup n p = some c → c.base = .hex h → Terminating p n
  | ref (n : String) (c : Color) (r : String) :
      List.lookup n p = some c → c.base = .paletteReference r →
      Terminating p r → Terminating p n

/-- Fuelled reference-chase defining the value an entry must resolve to:
the base's fully resolved colour with the entry's own modifiers applied. -/
def specVal (E : Ext) (p : List (String × Color)) :
    Nat → Color → Option HexColor
  | 0, _ => none
  | fuel + 1, c =>
    match c.base with
    | .hex h => some (E.applyModifiers h c.modifiers)
    | .paletteReference r =>
      match List.lookup r p with
      | none => none
      | some c' => (specVal E p fuel c').map fun h => E.applyModifiers h c.modifiers

/-- The (unique) chase value, fuel hidden. -/
def SpecIs (E : Ext) (p : List (String × Color)) (c : Color) (v : HexColor) :
    Prop :=
  ∃ fuel, specVal E p fuel c = some v

/-- Soundness invariant of the resolver's memo table: every memoized name is
a palette key whose entry's chase value is the memoized colour. -/
def MemoOK (E : Ext) (p : List (String × Color))
    (memo : List (String × HexColor)) : Prop :=
  ∀ s w, List.lookup s memo = some w →
    s ∈ p.map Prod.fst ∧ ∃ c, List.lookup s p = some c ∧ SpecIs E p c w

/-- All colours of a list fed into a fresh generator, in order. -/
def feedAll (E : Ext) (cs : List HexColor) : PaletteGenerator :=
  cs.foldl (fun g c => g.feed E c) ⟨[]⟩

/-- The bimap invariant: no duplicate triples, no duplicate names. -/
def BimapInj (m : List ((Nat × Nat × Nat) × String)) : Prop :=
  (m.map Prod.fst).Nodup ∧ (m.map Prod.snd).Nodup

/-- Opaque red, the literal colour of the concrete counterexamples. -/
def redC : HexColor := ⟨255, 0, 0, 255⟩

/-- A palette reference with no modifiers. -/
def refTo (s : String) : Color := { base := .paletteReference s }

/-- Degenerate self-cycle palette: `a` references `a`. -/
def palSelf : List (String × Color) := [("a", refTo "a")]

/-- Three-element cycle palette: `a → b → c → a`. -/
def palCycle : List (String × Color) :=
  [("a", refTo "b"), ("b", refTo "c"), ("c", refTo "a")]

/-- Acyclic two-entry palette used by the confluence witness. -/
def palChain : List (String × Color) :=
  [("fg", refTo "base"), ("base", { base := .hex redC })]

/-- The two modifiers of the C1 counterexample: first set the font style of
syntax scope `s`, then set only its font weight. -/
def modsC1 : List Modifier :=
  [{ apply := [.syntaxScope "s"], action := { fontStyle := some "italic" } },
   { apply := [.syntaxScope "s"], action := { fontWeight := some 700 } }]

/-- The freshly seeded style base `generate_json` starts every theme from. -/
def baseC1 : JsonTheme :=
  { name := "t", appearance := .dark
    style := [("players", .players []), ("syntax", .syntaxMap [])] }

/-- The result of applying `modsC1` to `baseC1`: the second action erased the
first one's font style. -/
def outC1 : JsonTheme :=
  { name := "t", appearance := .dark
    style := [("players", .players []),
              ("syntax", .syntaxMap [("s", { fontWeight := some 700 })])] }

/-- Flat style map of the C2 failing input: one syntax entry whose only
attribute is a background colour. -/
def flatStyleC2 : List (String × StyleEntry) :=
  [("syntax", .syntaxMap [("s", { background := some redC })])]

/-- The naming pass over `flatStyleC2`. -/
def genC2 : PaletteGenerator :=
  visitStyles (colorVisitor extModel) (⟨[]⟩ : PaletteGenerator) flatStyleC2

/-- The C3 failing input: an empty palette and a single theme whose single
modifier writes a background colour to syntax scope `s`. -/
def famC3 : ThemeFamily :=
  { meta := ⟨"m", "a"⟩
    palette := []
    themes :=
      [{ name := "t", appearance := .dark, players := []
         modifiers :=
           [{ apply := [.syntaxScope "s"]
              action := { background := some { base := .hex redC } } }] }]
    common := none }

/-- A flat family with a single theme (C9 witness, arity 1). -/
def famOne : JsonThemeFamily :=
  { schema := "", meta := ⟨"m", "a"⟩
    themes := [{ name := "one", appearance := .dark, style := [] }] }

/-- A flat family with two themes sharing a syntax colour (C9 witness,
arity 2). -/
def famTwo : JsonThemeFamily :=
  { schema := "", meta := ⟨"m", "a"⟩
    themes :=
      [{ name := "one", appearance := .dark
         style := [("syntax", .syntaxMap [("keyword", { color := some redC })])] },
       { name := "two", appearance := .dark
         style := [("syntax", .syntaxMap [("keyword", { color := some redC })])] }] }

/-- The flat form `generate_json` produces from the C3 failing input. -/
def flatC3 : JsonThemeFamily :=
  { schema := schemaUri, meta := ⟨"m", "a"⟩
    themes :=
      [{ name := "t", appearance := .dark
         style := [("players", .players []),
                   ("syntax", .syntaxMap [("s", { background := some redC })])] }] }

/-! ## C6 — `ColorModifiers` equality and hashing -/

lemma f32Eq_iff (a b : F32) : f32Eq a b = true ↔ F32.EqSpec a b := by
  simp only [f32Eq, F32.EqSpec, Bool.and_eq_true, Bool.or_eq_true, beq_iff_eq,
    Bool.not_eq_true', and_assoc]

lemma optF32Eq_iff (a b : Option F32) : optF32Eq a b = true ↔ OptF32EqSpec a b := by
  cases a <;> cases b <;> simp [optF32Eq, OptF32EqSpec, f32Eq_iff]

lemma isNan_isZero_false (a : F32) (h : a.isNan = true) : a.isZero = false := by
  simp only [F32.isNan, Bool.and_eq_true, beq_iff_eq, bne_iff_ne] at h
  simp [F32.isZero, h.1]

lemma optF32Eq_hash (a b : Option F32) (h : optF32Eq a b = true) :
    hashF32 a = hashF32 b := by
  cases a with
  | none => cases b with
    | none => rfl
    | some b => simp [optF32Eq] at h
  | some a =>
    cases b with
    | none => simp [optF32Eq] at h
    | some b =>
      rw [optF32Eq, f32Eq_iff] at h
      obtain ⟨-, -, hbits | hzero⟩ := h
      · obtain ⟨a⟩ := a
        obtain ⟨b⟩ := b
        cases hbits
        rfl
      · simp [hashF32, hzero.1, hzero.2]

/-- C6 (amended): two `ColorModifiers` are Rust-equal exactly when every one
of the six optional fields matches as an IEEE-754 `f32` value — a zero of
either sign equals a zero of either sign, a NaN equals nothing (a
bit-identical NaN included), and every other value matches exactly its own
bit pattern; the hash maps any zero to the same word regardless of sign and
any NaN to the same word regardless of representation, so Rust-equal values
feed the hasher identically. -/
theorem c6_modifier_equality_ieee :
    (∀ m n : ColorModifiers,
       ColorModifiers.beq m n = true ↔
         (OptF32EqSpec m.alpha n.alpha ∧ OptF32EqSpec m.lighten n.lighten ∧
          OptF32EqSpec m.darken n.darken ∧ OptF32EqSpec m.saturate n.saturate ∧
          OptF32EqSpec m.desaturate n.desaturate ∧
          OptF32EqSpec m.hueShift n.hueShift)) ∧
    (∀ a b : F32, a.isZero = true → b.isZero = true →
       hashF32 (some a) = hashF32 (some b)) ∧
    (∀ a b : F32, a.isNan = true → b.isNan = true →
       hashF32 (some a) = hashF32 (some b)) ∧
    (∀ m n : ColorModifiers, ColorModifiers.beq m n = true →
       m.hashStream = n.hashStream) := by
  refine ⟨fun m n => ?_, fun a b ha hb => ?_, fun a b ha hb => ?_, fun m n h => ?_⟩
  · simp only [ColorModifiers.beq, Bool.and_eq_true, optF32Eq_iff, and_assoc]
  · simp [hashF32, ha, hb]
  · simp [hashF32, ha, hb, isNan_isZero_false a ha, isNan_isZero_false b hb]
  · simp only [ColorModifiers.beq, Bool.and_eq_true] at h
    obtain ⟨⟨⟨⟨⟨h1, h2⟩, h3⟩, h4⟩, h5⟩, h6⟩ := h
    simp only [ColorModifiers.hashStream, optF32Eq_hash _ _ h1, optF32Eq_hash _ _ h2,
      optF32Eq_hash _ _ h3, optF32Eq_hash _ _ h4, optF32Eq_hash _ _ h5,
      optF32Eq_hash _ _ h6]

/-- C6 counterexample: `-0.0` and `+0.0` have different bit patterns
(`0x80000000` vs `0`) yet the two modifier records compare Rust-equal, so
"equal iff every field matches bit-for-bit" fails on the code. -/
theorem c6_counterexample :
    ColorModifiers.beq { alpha := some ⟨0x80000000⟩ } { alpha := some ⟨0⟩ } = true ∧
      ({ alpha := some ⟨0x80000000⟩ } : ColorModifiers) ≠ { alpha := some ⟨0⟩ } := by
  constructor
  · decide
  · intro h
    have : (0x80000000 : Nat) = 0 := congrArg (fun m => ((m.alpha.getD ⟨0⟩).bits)) h
    simp at this

/-- C6 witness: the amended equality applied at `-0.0` vs `+0.0`, and the
hash facts applied at concrete zero and NaN patterns. -/
theorem c6_witness :
    (ColorModifiers.beq { alpha := some ⟨0x80000000⟩ } { alpha := some ⟨0⟩ } = true) ∧
      hashF32 (some ⟨0x80000000⟩) = hashF32 (some ⟨0⟩) ∧
      hashF32 (some ⟨0x7fc00000⟩) = hashF32 (some ⟨0x7f800001⟩) := by
  refine ⟨?_, ?_, ?_⟩
  · exact (c6_modifier_equality_ieee.1 _ _).mpr (by
      refine ⟨?_, trivial, trivial, trivial, trivial, trivial⟩
      exact ⟨by decide, by decide, Or.inr ⟨by decide, by decide⟩⟩)
  · exact c6_modifier_equality_ieee.2.1 _ _ (by decide) (by decide)
  · exact c6_modifier_equality_ieee.2.2.1 _ _ (by decide) (by decide)

/-! ## C7 — synthesizer naming invariant -/

lemma bimapInsert_inj (m : List ((Nat × Nat × Nat) × String))
    (rgb : Nat × Nat × Nat) (name : String) (h : BimapInj m) :
    BimapInj (bimapInsert m rgb name) := by
  obtain ⟨h1, h2⟩ := h
  constructor
  · rw [bimapInsert, List.map_append, List.nodup_append]
    refine ⟨(h1.sublist ((List.filter_sublist m).map Prod.fst)), by simp, ?_⟩
    intro x hx
    simp only [List.map_cons, List.map_nil, List.mem_singleton]
    intro hx'
    subst hx'
    obtain ⟨pr, hpr, hpr'⟩ := List.mem_map.mp hx
    have := List.of_mem_filter hpr
    simp only [decide_eq_true_eq] at this
    exact this.1 hpr'
  · rw [bimapInsert, List.map_append, List.nodup_append]
    refine ⟨(h2.sublist ((List.filter_sublist m).map Prod.snd)), by simp, ?_⟩
    intro x hx
    simp only [List.map_cons, List.map_nil, List.mem_singleton]
    intro hx'
    subst hx'
    obtain ⟨pr, hpr, hpr'⟩ := List.mem_map.mp hx
    have := List.of_mem_filter hpr
    simp only [decide_eq_true_eq] at this
    exact this.2 hpr'

lemma feed_inj (E : Ext) (g : PaletteGenerator) (c : HexColor)
    (h : BimapInj g.rgbToName) : BimapInj (g.feed E c).rgbToName := by
  rw [PaletteGenerator.feed]
  dsimp only
  split
  · exact h
  · exact bimapInsert_inj _ _ _ h

lemma feedAll_inj (E : Ext) (cs : List HexColor) :
    BimapInj (feedAll E cs).rgbToName := by
  rw [feedAll]
  induction cs using List.reverseRecOn with
  | nil => exact ⟨List.nodup_nil, List.nodup_nil⟩
  | append_singleton cs c ih =>
    rw [List.foldl_append, List.foldl_cons, List.foldl_nil]
    exact feed_inj _ _ _ ih

/-- C7: after any sequence of `feed` calls the triple-to-name mapping is
injective — two entries carrying the same name are the same entry, so two
distinct RGB triples never share a name — and feeding a colour whose RGB
triple is already named returns the generator unchanged. -/
theorem c7_naming_invariant (E : Ext) (cs : List HexColor) :
    (∀ pr1 ∈ (feedAll E cs).rgbToName, ∀ pr2 ∈ (feedAll E cs).rgbToName,
       pr1.2 = pr2.2 → pr1.1 = pr2.1) ∧
    (∀ c : HexColor,
       ((feedAll E cs).rgbToName.find? (fun pr => pr.1 = (c.r, c.g, c.b))).isSome = true →
       (feedAll E cs).feed E c = feedAll E cs) := by
  constructor
  · intro pr1 h1 pr2 h2 hsnd
    exact congrArg Prod.fst
      (List.inj_on_of_nodup_map (feedAll_inj E cs).2 h1 h2 hsnd)
  · intro c hc
    rw [PaletteGenerator.feed]
    simp only [hc]
    rfl

/-- C7 witness: the invariant applied to a concrete feed sequence, with the
no-op hypothesis discharged by evaluation. -/
theorem c7_witness :
    (feedAll extModel [⟨1, 2, 3, 255⟩]).feed extModel ⟨1, 2, 3, 9⟩ =
      feedAll extModel [⟨1, 2, 3, 255⟩] :=
  (c7_naming_invariant extModel [⟨1, 2, 3, 255⟩]).2 ⟨1, 2, 3, 9⟩ (by decide)

/-! ## C9 — common-extraction arity guard -/

lemma generateKdl_two (E : Ext) (tf : JsonThemeFamily) (t1 t2 : Theme)
    (hk : kdlThemes E tf = [t1, t2]) :
    generateKdl E tf =
      { meta := tf.meta
        palette := intoRawPalette (namingPass E tf).intoResolvedPalette
        themes := [(t1.extractCommon t2).2.1, (t1.extractCommon t2).2.2]
        common := some (t1.extractCommon t2).1 } := by
  rw [generateKdl]
  simp only [hk]

lemma generateKdl_other (E : Ext) (tf : JsonThemeFamily)
    (h : ∀ t1 t2 : Theme, kdlThemes E tf ≠ [t1, t2]) :
    generateKdl E tf =
      { meta := tf.meta
        palette := intoRawPalette (namingPass E tf).intoResolvedPalette
        themes := kdlThemes E tf
        common := none } := by
  rw [generateKdl]
  rcases hk : kdlThemes E tf with - | ⟨a, - | ⟨b, - | ⟨c, rest⟩⟩⟩
  · rfl
  · rfl
  · exact absurd hk (h a b)
  · rfl

/-- C9: the reverse pipeline extracts a common theme exactly when the family
has two themes; with zero, one, or three or more themes the translated
themes are passed through untouched and no `common` theme is produced, while
with exactly two themes the extraction result is assigned to `common` and
the two mutated themes replace the originals. -/
theorem c9_arity_guard (E : Ext) (tf : JsonThemeFamily) :
    (tf.themes.length ≠ 2 →
       (generateKdl E tf).common = none ∧
       (generateKdl E tf).themes = kdlThemes E tf) ∧
    (tf.themes.length = 2 →
       ∃ t1 t2 : Theme, kdlThemes E tf = [t1, t2] ∧
         (generateKdl E tf).common = some (t1.extractCommon t2).1 ∧
         (generateKdl E tf).themes =
           [(t1.extractCommon t2).2.1, (t1.extractCommon t2).2.2]) := by
  have hlen : (kdlThemes E tf).length = tf.themes.length := by
    simp [kdlThemes]
  constructor
  · intro hne
    have h2 : ∀ t1 t2 : Theme, kdlThemes E tf ≠ [t1, t2] := by
      intro t1 t2 hk
      rw [hk] at hlen
      exact hne hlen.symm
    rw [generateKdl_other E tf h2]
    exact ⟨rfl, rfl⟩
  · intro h2
    rw [← hlen] at h2
    rcases hk : kdlThemes E tf with - | ⟨a, - | ⟨b, - | ⟨c, rest⟩⟩⟩ <;>
      rw [hk] at h2 <;> simp at h2
    refine ⟨a, b, rfl, ?_, ?_⟩ <;> rw [generateKdl_two E tf a b hk]

/-- C9 witness: one theme gives no `common`; two themes give one. -/
theorem c9_witness :
    ((generateKdl extModel famOne).common = none ∧
       (generateKdl extModel famOne).themes = kdlThemes extModel famOne) ∧
    (∃ t1 t2 : Theme, kdlThemes extModel famTwo = [t1, t2] ∧
       (generateKdl extModel famTwo).common = some (t1.extractCommon t2).1 ∧
       (generateKdl extModel famTwo).themes =
         [(t1.extractCommon t2).2.1, (t1.extractCommon t2).2.2]) :=
  ⟨(c9_arity_guard extModel famOne).1 (by decide),
   (c9_arity_guard extModel famTwo).2 (by decide)⟩

/-! ## C2 and C3 — the dead `background` grouping of `ModifierVisitor` -/

lemma mv_visitEntry_background (E : Ext) (g : PaletteGenerator)
    (st : ModifierVisitorState) (pr : String × StyleEntry) :
    (visitEntry (modifierVisitor E g) st pr).background = st.background := by
  rcases pr with ⟨key, entry⟩
  cases entry with
  | normal c =>
    cases c with
    | none => rfl
    | some c => rfl
  | players ps =>
    induction ps generalizing st with
    | nil => rfl
    | cons p rest ih =>
      have hstep :
          visitEntry (modifierVisitor E g) st (key, .players (p :: rest)) =
            visitEntry (modifierVisitor E g) st (key, .players rest) := by
        rw [visitEntry, visitEntry, List.foldl_cons]
        rcases p with ⟨cu, bg, se⟩
        cases cu <;> cases bg <;> cases se <;> rfl
      rw [hstep, ih st]
  | syntaxMap m =>
    induction m generalizing st with
    | nil => rfl
    | cons e rest ih =>
      rcases e with ⟨nm, sy⟩
      rcases sy with ⟨co, bg, fw, fs⟩
      have hstep :
          ∃ st' : ModifierVisitorState, st'.background = st.background ∧
            visitEntry (modifierVisitor E g) st (key, .syntaxMap ((nm, ⟨co, bg, fw, fs⟩) :: rest)) =
              visitEntry (modifierVisitor E g) st' (key, .syntaxMap rest) := by
        refine ⟨_, ?_, by rw [visitEntry, visitEntry, List.foldl_cons]⟩
        cases co <;> cases bg <;> cases fw <;> cases fs <;> rfl
      obtain ⟨st', hbg, hrw⟩ := hstep
      rw [hrw, ih st', hbg]

lemma mv_background_invariant (E : Ext) (g : PaletteGenerator)
    (map : List (String × StyleEntry)) (st : ModifierVisitorState) :
    (visitStyles (modifierVisitor E g) st map).background = st.background := by
  induction map generalizing st with
  | nil => rfl
  | cons pr rest ih =>
    rw [visitStyles, List.foldl_cons]
    rw [show List.foldl (visitEntry (modifierVisitor E g))
          (visitEntry (modifierVisitor E g) st pr) rest =
        visitStyles (modifierVisitor E g) (visitEntry (modifierVisitor E g) st pr) rest from rfl]
    rw [ih, mv_visitEntry_background]

/-- C2: the style decompiler's `background` grouping is never populated — in
any traversal the visitor state's `background` multimap stays what it
started as — and on the concrete failing input (a flat theme whose syntax
entry `s` carries only the background `#ff0000ff`) the emitted modifier list
consists of a single modifier whose action sets the `color` field (a
reference to the synthesized name) rather than the `background` field the
claim requires. -/
theorem c2_background_grouped_as_color :
    (∀ (E : Ext) (g : PaletteGenerator) (st : ModifierVisitorState)
       (map : List (String × StyleEntry)),
       (visitStyles (modifierVisitor E g) st map).background = st.background) ∧
    intoModifiers (visitStyles (modifierVisitor extModel genC2) {} flatStyleC2) =
      [{ apply := [.syntaxScope "s"], action := { color := some (refTo "color") } }] := by
  refine ⟨fun E g st map => mv_background_invariant E g map st, by decide⟩

/-- C3: scoped round-trip fails at syntax backgrounds.  Compiling the
concrete family (whose empty palette resolves) yields a flat form carrying
the literal `#ff0000ff` as the `background` of syntax scope `s`, but the
decompiled family contains no modifier whose action sets a background at
all — the value re-appears only as a `color` action — so no `ColorRef` in
the decompiled family reproduces the flat form's colour at the syntax
background path.  (Every `apply_modifiers` call in this run carries empty
modifiers, where the specification pins the external colour math to the
identity, as `extModel` does.) -/
theorem c3_roundtrip_loses_syntax_background :
    generateJson extModel famC3 = .ok flatC3 ∧
    (∃ m, flatC3.themes.head?.map (fun t => List.lookup "syntax" t.style) =
        some (some (.syntaxMap m)) ∧
        (List.lookup "s" m).map (fun e => e.background) = some (some redC)) ∧
    ((generateKdl extModel flatC3).themes.all
      (fun t => t.modifiers.all fun m => m.action.background = none)) = true ∧
    ((generateKdl extModel flatC3).common = none) := by
  refine ⟨by rfl, ⟨[("s", { background := some redC })], by rfl, by rfl⟩, by decide, by rfl⟩

/-! ## C1 — overwrite semantics on syntax targets -/

lemma lookup_cons_ne {α : Type} (pk k : String) (pv : α)
    (es : List (String × α)) (h : k ≠ pk) :
    List.lookup k ((pk, pv) :: es) = List.lookup k es := by
  rw [List.lookup_cons, show (k == pk) = false by
    simp only [beq_eq_false_iff_ne]; exact h]

lemma lookup_map_update_self {α : Type} (m : List (String × α)) (k : String)
    (v : α) (h : ∃ pr ∈ m, pr.1 = k) :
    List.lookup k (m.map fun pr => if pr.1 == k then (k, v) else pr) = some v := by
  induction m with
  | nil => simp at h
  | cons pr m' ih =>
    obtain ⟨pk, pv⟩ := pr
    by_cases hk : pk = k
    · rw [List.map_cons]
      rw [if_pos (show ((pk, pv).1 == k) = true by
        simp only [beq_iff_eq]; exact hk)]
      exact List.lookup_cons_self
    · have h' : ∃ q ∈ m', q.1 = k := by
        obtain ⟨q, hq, hq1⟩ := h
        rcases List.mem_cons.mp hq with rfl | hq'
        · exact absurd hq1 hk
        · exact ⟨q, hq', hq1⟩
      rw [List.map_cons]
      rw [if_neg (show ¬ ((pk, pv).1 == k) = true by
        simp only [beq_iff_eq]; exact hk)]
      rw [lookup_cons_ne _ _ _ _ fun he => hk he.symm]
      exact ih h'

lemma lookup_map_update_other {α : Type} (m : List (String × α))
    (k k' : String) (v : α) (h : k' ≠ k) :
    List.lookup k' (m.map fun pr => if pr.1 == k then (k, v) else pr) =
      List.lookup k' m := by
  induction m with
  | nil => rfl
  | cons pr m' ih =>
    obtain ⟨pk, pv⟩ := pr
    rw [List.map_cons]
    by_cases hk : pk = k
    · rw [if_pos (show ((pk, pv).1 == k) = true by
        simp only [beq_iff_eq]; exact hk)]
      rw [lookup_cons_ne _ _ _ _ h, lookup_cons_ne _ _ _ _ (hk ▸ h)]
      exact ih
    · rw [if_neg (show ¬ ((pk, pv).1 == k) = true by
        simp only [beq_iff_eq]; exact hk)]
      by_cases hk' : k' = pk
      · subst hk'
        rw [List.lookup_cons_self, List.lookup_cons_self]
      · rw [lookup_cons_ne _ _ _ _ hk', lookup_cons_ne _ _ _ _ hk']
        exact ih

lemma lookup_append_right_of_absent {α : Type} (m l : List (String × α))
    (k : String) (h : ∀ pr ∈ m, pr.1 ≠ k) :
    List.lookup k (m ++ l) = List.lookup k l := by
  induction m with
  | nil => rfl
  | cons pr m' ih =>
    obtain ⟨pk, pv⟩ := pr
    have h1 : pk ≠ k := h (pk, pv) (List.mem_cons_self _ m')
    rw [List.cons_append, lookup_cons_ne _ _ _ _ fun he => h1 he.symm]
    exact ih fun q hq => h q (List.mem_cons_of_mem _ hq)

lemma lookup_insertAssoc_self {α : Type} (m : List (String × α)) (k : String)
    (v : α) : List.lookup k (insertAssoc m k v) = some v := by
  rw [insertAssoc]
  split
  case isTrue h =>
    simp only [List.any_eq_true, beq_iff_eq] at h
    exact lookup_map_update_self m k v h
  case isFalse h =>
    simp only [List.any_eq_true, beq_iff_eq, not_exists, not_and] at h
    rw [lookup_append_right_of_absent m _ k fun pr hpr => h pr hpr]
    exact List.lookup_cons_self

lemma lookup_append_singleton_other {α : Type} (m : List (String × α))
    (k k' : String) (v : α) (h : k' ≠ k) :
    List.lookup k' (m ++ [(k, v)]) = List.lookup k' m := by
  induction m with
  | nil =>
    rw [List.nil_append, lookup_cons_ne _ _ _ _ h]
  | cons pr m' ih =>
    obtain ⟨pk, pv⟩ := pr
    by_cases hk' : k' = pk
    · subst hk'
      rw [List.cons_append, List.lookup_cons_self, List.lookup_cons_self]
    · rw [List.cons_append, lookup_cons_ne _ _ _ _ hk', lookup_cons_ne _ _ _ _ hk']
      exact ih

lemma lookup_insertAssoc_other {α : Type} (m : List (String × α))
    (k k' : String) (v : α) (h : k' ≠ k) :
    List.lookup k' (insertAssoc m k v) = List.lookup k' m := by
  rw [insertAssoc]
  split
  · exact lookup_map_update_other m k k' v h
  · exact lookup_append_singleton_other m k k' v h

lemma applyModifierList_eq_pairs (E : Ext) (r : List (String × HexColor))
    (mods : List Modifier) (t : JsonTheme) :
    applyModifierList E r mods t =
      (pairsOf mods).foldlM (fun th pa => applyAction E r th pa.1 pa.2) t := by
  induction mods generalizing t with
  | nil => rfl
  | cons m rest ih =>
    show m.apply.foldlM (fun th2 target => applyAction E r th2 m.action target) t >>=
        (fun t' => applyModifierList E r rest t') = _
    rw [pairsOf, List.flatMap_cons, List.foldlM_append, List.foldlM_map]
    cases h : m.apply.foldlM (fun th2 target => applyAction E r th2 m.action target) t with
    | error e => rfl
    | ok t' => exact ih t'

lemma except_bind_ok {α β γ : Type} (x : Except γ α) (f : α → Except γ β)
    (b : β) (h : x.bind f = .ok b) : ∃ a, x = .ok a ∧ f a = .ok b := by
  cases x with
  | error e => simp [Except.bind] at h
  | ok a => exact ⟨a, rfl, h⟩

lemma applySyntaxAction_fonts (E : Ext) (r : List (String × HexColor))
    (entry e : SyntaxStyle) (a : Action)
    (h : applySyntaxAction E r entry a = .ok e) :
    e.fontStyle = a.fontStyle ∧ e.fontWeight = a.fontWeight := by
  rw [applySyntaxAction] at h
  obtain ⟨e1, he1, h⟩ := except_bind_ok _ _ _ h
  obtain ⟨e2, he2, h⟩ := except_bind_ok _ _ _ h
  simp only [Except.ok.injEq] at h
  subst h
  exact ⟨rfl, rfl⟩

lemma except_error_bind {α β γ : Type} (e : γ) (f : α → Except γ β) :
    (Except.error e >>= f) = (Except.error e : Except γ β) := rfl

lemma except_ok_bind {α β γ : Type} (a : α) (f : α → Except γ β) :
    (Except.ok a >>= f) = f a := rfl

lemma except_bind_error_eval {α β γ : Type} (e : γ) (f : α → Except γ β) :
    (Except.error e : Except γ α).bind f = Except.error e := rfl

lemma except_bind_ok_eval {α β γ : Type} (a : α) (f : α → Except γ β) :
    (Except.ok a : Except γ α).bind f = f a := rfl

lemma except_map_ok {α β γ : Type} (f : α → β) (x : Except γ α) (b : β)
    (h : Except.map f x = .ok b) : ∃ a, x = .ok a ∧ f a = b := by
  cases x with
  | error e => simp [Except.map] at h
  | ok a => exact ⟨a, rfl, Except.ok.inj h⟩

lemma applyPairs_syntax_track (E : Ext) (r : List (String × HexColor))
    (pairs : List (Action × ModifierPath)) :
    ∀ (t0 t1 : JsonTheme) (m0 : List (String × SyntaxStyle)),
    List.lookup "syntax" t0.style = some (.syntaxMap m0) →
    (∀ pa ∈ pairs, pa.2 ≠ ModifierPath.style "syntax") →
    pairs.foldlM (fun th pa => applyAction E r th pa.1 pa.2) t0 = .ok t1 →
    ∃ mEnd, syntaxFold E r pairs m0 = .ok mEnd ∧
      List.lookup "syntax" t1.style = some (.syntaxMap mEnd) := by
  induction pairs with
  | nil =>
    intro t0 t1 m0 h0 _ hok
    rw [List.foldlM_nil] at hok
    have ht : t0 = t1 := Except.ok.inj hok
    exact ⟨m0, rfl, ht ▸ h0⟩
  | cons pa rest ih =>
    intro t0 t1 m0 h0 hns hok
    rw [List.foldlM_cons] at hok
    cases hstep : applyAction E r t0 pa.1 pa.2 with
    | error e =>
      rw [hstep, except_error_bind] at hok
      exact absurd hok (by simp)
    | ok t0' =>
      rw [hstep, except_ok_bind] at hok
      rcases hpa : pa.2 with path | s
      · have hpath : path ≠ "syntax" := by
          intro he
          exact hns pa (List.mem_cons_self pa rest) (by rw [hpa, he])
        rw [hpa] at hstep
        rw [applyAction] at hstep
        split at hstep
        · exact absurd hstep (by simp)
        · have h0' : List.lookup "syntax" t0'.style = some (.syntaxMap m0) := by
            cases hco : pa.1.color with
            | none =>
              rw [hco] at hstep
              have := Except.ok.inj hstep
              rw [← this]
              exact h0
            | some c =>
              rw [hco] at hstep
              dsimp only at hstep
              cases hc : lookupResolved E r c with
              | error err => rw [hc] at hstep; exact absurd hstep (by simp [Except.map])
              | ok hcol =>
                rw [hc] at hstep
                simp only [Except.map, Except.ok.injEq] at hstep
                rw [← hstep]
                dsimp only
                rw [lookup_insertAssoc_other _ _ _ _ (Ne.symm hpath)]
                exact h0
          obtain ⟨mEnd, hfold, hend⟩ :=
            ih t0' t1 m0 h0' (fun q hq => hns q (List.mem_cons_of_mem pa hq)) hok
          refine ⟨mEnd, ?_, hend⟩
          rw [syntaxFold, List.foldlM_cons, hpa]
          dsimp only
          rw [except_ok_bind]
          exact hfold
      · rw [hpa] at hstep
        rw [applyAction, processSyntaxPath, h0] at hstep
        obtain ⟨e, he, hfe⟩ := except_map_ok _ _ _ hstep
        have h0' : List.lookup "syntax" t0'.style =
            some (.syntaxMap (insertAssoc m0 s e)) := by
          rw [← hfe]
          exact lookup_insertAssoc_self _ _ _
        obtain ⟨mEnd, hfold, hend⟩ :=
          ih t0' t1 (insertAssoc m0 s e) h0'
            (fun q hq => hns q (List.mem_cons_of_mem pa hq)) hok
        refine ⟨mEnd, ?_, hend⟩
        rw [syntaxFold, List.foldlM_cons]
        try dsimp only
        rw [hpa]
        try dsimp only
        rw [he]
        try dsimp only [Except.map]
        rw [except_ok_bind]
        exact hfold

lemma syntaxFold_lookup (E : Ext) (r : List (String × HexColor))
    (pairs : List (Action × ModifierPath)) :
    ∀ (m0 mEnd : List (String × SyntaxStyle)),
    syntaxFold E r pairs m0 = .ok mEnd →
    ∀ s, applySyntaxActionChain E r (actionsAtPairs s pairs)
        (List.lookup s m0) = .ok (List.lookup s mEnd) := by
  induction pairs with
  | nil =>
    intro m0 mEnd hok s
    rw [syntaxFold, List.foldlM_nil] at hok
    have hm : m0 = mEnd := Except.ok.inj hok
    rw [hm]
    rfl
  | cons pa rest ih =>
    intro m0 mEnd hok s
    rw [syntaxFold, List.foldlM_cons] at hok
    rcases hpa : pa.2 with path | s'
    · rw [hpa] at hok
      dsimp only at hok
      rw [except_ok_bind] at hok
      replace hok : syntaxFold E r rest m0 = .ok mEnd := hok
      rw [actionsAtPairs, if_neg (by rw [hpa]; simp)]
      exact ih m0 mEnd hok s
    · rw [hpa] at hok
      dsimp only at hok
      cases he : applySyntaxAction E r ((List.lookup s' m0).getD {}) pa.1 with
      | error err =>
        rw [he] at hok
        dsimp only [Except.map] at hok
        rw [except_error_bind] at hok
        exact absurd hok (by simp)
      | ok e =>
        rw [he] at hok
        dsimp only [Except.map] at hok
        rw [except_ok_bind] at hok
        replace hok : syntaxFold E r rest (insertAssoc m0 s' e) = .ok mEnd := hok
        by_cases hs : s' = s
        · subst hs
          rw [actionsAtPairs, if_pos (by rw [hpa])]
          rw [applySyntaxActionChain, he, except_bind_ok_eval]
          have := ih (insertAssoc m0 s' e) mEnd hok s'
          rw [lookup_insertAssoc_self] at this
          exact this
        · rw [actionsAtPairs, if_neg (by
            rw [hpa]
            simp only [ModifierPath.syntaxScope.injEq]
            exact hs)]
          have := ih (insertAssoc m0 s' e) mEnd hok s
          rw [lookup_insertAssoc_other _ _ _ _ (fun he2 => hs he2.symm)] at this
          exact this

lemma chain_last_fonts (E : Ext) (r : List (String × HexColor))
    (acts : List Action) :
    ∀ (cur : Option SyntaxStyle) (res : Option SyntaxStyle),
    applySyntaxActionChain E r acts cur = .ok res →
    ∀ aL, acts.getLast? = some aL →
    ∃ e, res = some e ∧ e.fontStyle = aL.fontStyle ∧ e.fontWeight = aL.fontWeight := by
  induction acts with
  | nil => intro cur res _ aL h; simp at h
  | cons a rest ih =>
    intro cur res hok aL hlast
    rw [applySyntaxActionChain] at hok
    cases he : applySyntaxAction E r (cur.getD {}) a with
    | error err => rw [he] at hok; simp [Except.bind] at hok
    | ok e0 =>
      rw [he] at hok
      replace hok : applySyntaxActionChain E r rest (some e0) = .ok res := hok
      cases rest with
      | nil =>
        simp only [List.getLast?_singleton, Option.some.injEq] at hlast
        subst hlast
        simp only [applySyntaxActionChain, Except.ok.injEq] at hok
        obtain ⟨h1, h2⟩ := applySyntaxAction_fonts E r _ _ _ he
        exact ⟨e0, hok.symm, h1, h2⟩
      | cons b t =>
        have : (b :: t).getLast? = some aL := by
          rw [← hlast]
          exact List.getLast?_cons_cons.symm
        exact ih (some e0) res hok aL this

/-- C1 (amended): applying a theme's modifiers in list order to a syntax
scope `s`, an `Action` gets-or-creates the syntax entry and overwrites
`color` and `background` exactly when it specifies them — a later modifier's
write wins over an earlier one and an unspecified colour field keeps the
earlier value — but `font_weight` and `font_style` are copied from every
applied `Action` unconditionally, so after the whole list they equal the
last applied action's (possibly absent) font fields rather than keeping
earlier modifiers' values.  (Stated for modifier lists that never target the
flat style key `"syntax"`, which would clobber the whole syntax map.) -/
theorem c1_syntax_overwrite (E : Ext) (resolved : List (String × HexColor))
    (mods : List Modifier) (t0 t1 : JsonTheme)
    (m0 : List (String × SyntaxStyle))
    (h0 : List.lookup "syntax" t0.style = some (.syntaxMap m0))
    (hns : ∀ m ∈ mods, ModifierPath.style "syntax" ∉ m.apply)
    (hok : applyModifierList E resolved mods t0 = .ok t1) :
    ∃ mEnd, List.lookup "syntax" t1.style = some (.syntaxMap mEnd) ∧
      (∀ s, applySyntaxActionChain E resolved (actionsAt mods s)
          (List.lookup s m0) = .ok (List.lookup s mEnd)) ∧
      (∀ s aL, (actionsAt mods s).getLast? = some aL →
        ∃ e, List.lookup s mEnd = some e ∧
          e.fontStyle = aL.fontStyle ∧ e.fontWeight = aL.fontWeight) := by
  rw [applyModifierList_eq_pairs] at hok
  have hns' : ∀ pa ∈ pairsOf mods, pa.2 ≠ ModifierPath.style "syntax" := by
    intro pa hpa
    rw [pairsOf, List.mem_flatMap] at hpa
    obtain ⟨m, hm, hpa⟩ := hpa
    rw [List.mem_map] at hpa
    obtain ⟨target, htarget, heq⟩ := hpa
    intro hbad
    rw [← heq] at hbad
    dsimp only at hbad
    exact hns m hm (hbad ▸ htarget)
  obtain ⟨mEnd, hfold, hend⟩ :=
    applyPairs_syntax_track E resolved (pairsOf mods) t0 t1 m0 h0 hns' hok
  refine ⟨mEnd, hend, fun s => ?_, fun s aL hlast => ?_⟩
  · exact syntaxFold_lookup E resolved (pairsOf mods) m0 mEnd hfold s
  · have hchain := syntaxFold_lookup E resolved (pairsOf mods) m0 mEnd hfold s
    obtain ⟨e, he, h1, h2⟩ :=
      chain_last_fonts E resolved (actionsAt mods s) _ _ hchain aL hlast
    exact ⟨e, he, h1, h2⟩

/-- C1 counterexample: after `[{font_style: "italic", apply: [syntax.s]},
{font_weight: 700, apply: [syntax.s]}]` the entry at `s` has `font_style`
`none` — the second action did not specify `font_style`, yet the earlier
write is erased, where the claim requires it kept. -/
theorem c1_counterexample :
    applyModifierList extModel [] modsC1 baseC1 = .ok outC1 ∧
    (List.lookup "syntax" outC1.style =
      some (.syntaxMap [("s", { fontWeight := some 700 })])) ∧
    ({ fontWeight := some 700 } : SyntaxStyle).fontStyle ≠ some "italic" := by
  exact ⟨by rfl, by rfl, by decide⟩

/-- C1 witness: the amended characterization applied to the concrete
counterexample input. -/
theorem c1_witness :
    ∃ mEnd, List.lookup "syntax" outC1.style = some (.syntaxMap mEnd) ∧
      (∀ s, applySyntaxActionChain extModel [] (actionsAt modsC1 s)
          (List.lookup s ([] : List (String × SyntaxStyle))) =
          .ok (List.lookup s mEnd)) ∧
      (∀ s aL, (actionsAt modsC1 s).getLast? = some aL →
        ∃ e, List.lookup s mEnd = some e ∧
          e.fontStyle = aL.fontStyle ∧ e.fontWeight = aL.fontWeight) :=
  c1_syntax_overwrite extModel [] modsC1 baseC1 outC1 [] (by rfl) (by decide) (by rfl)

/-! ## C4 — cycle detection and diagnostics -/

lemma nodup_keys_lookup (p : List (String × Color))
    (hnd : (p.map Prod.fst).Nodup) :
    ∀ n c, (n, c) ∈ p → List.lookup n p = some c := by
  induction p with
  | nil => intro n c h; simp at h
  | cons pr rest ih =>
    obtain ⟨pk, pv⟩ := pr
    rw [List.map_cons, List.nodup_cons] at hnd
    intro n c h
    rcases List.mem_cons.mp h with heq | hmem
    · obtain ⟨h1, h2⟩ := Prod.mk.injEq .. ▸ heq
      subst h1
      subst h2
      exact List.lookup_cons_self
    · have hne : n ≠ pk := by
        intro he
        subst he
        exact hnd.1 (List.mem_map.mpr ⟨(n, c), hmem, rfl⟩)
      rw [lookup_cons_ne _ _ _ _ hne]
      exact ih hnd.2 n c hmem

lemma followN_append (p : List (String × Color)) (a b : Nat) (n : String) :
    followN p (a + b) n = (followN p a n).bind (followN p b) := by
  induction a generalizing n with
  | zero =>
    rw [Nat.zero_add]
    rfl
  | succ a ih =>
    rw [show a + 1 + b = (a + b) + 1 from by omega]
    rw [followN, followN]
    cases hd : deref p n with
    | none => rfl
    | some r =>
      show followN p (a + b) r = (followN p a r).bind (followN p b)
      exact ih r

lemma terminating_not_cyclic (p : List (String × Color)) (n : String)
    (ht : Terminating p n) : ¬ CyclicAt p n := by
  induction ht with
  | hex m c h hl hb =>
    rintro ⟨k, hk1, hfk⟩
    obtain ⟨k', rfl⟩ : ∃ k', k = k' + 1 := ⟨k - 1, by omega⟩
    rw [followN] at hfk
    rw [show deref p m = none from by
      rw [deref, hl]
      dsimp only
      rw [hb]] at hfk
    simp at hfk
  | ref m c r hl hb _ ih =>
    rintro ⟨k, hk1, hfk⟩
    obtain ⟨k', rfl⟩ : ∃ k', k = k' + 1 := ⟨k - 1, by omega⟩
    have hd : deref p m = some r := by
      rw [deref, hl]
      dsimp only
      rw [hb]
    rw [followN, hd] at hfk
    replace hfk : followN p k' r = some m := hfk
    refine ih ⟨k' + 1, by omega, ?_⟩
    rw [followN_append p k' 1 r, hfk]
    show followN p 1 m = some r
    rw [followN, hd]
    rfl

lemma resolveColor_terminating (E : Ext) (p : List (String × Color)) :
    ∀ (fuel : Nat) (name : String) (color : Color)
      (memo memo' : List (String × HexColor)) (deps : List String)
      (v : HexColor),
    resolveColor E p fuel name color memo deps = .ok (v, memo') →
    List.lookup name p = some color →
    (∀ s w, List.lookup s memo = some w → Terminating p s) →
    Terminating p name ∧
      (∀ s w, List.lookup s memo' = some w → Terminating p s) := by
  intro fuel
  induction fuel with
  | zero => intro name color memo memo' deps v hok; exact absurd hok (by simp [resolveColor])
  | succ fuel ih =>
    intro name color memo memo' deps v hok hn hmemo
    rw [resolveColor] at hok
    cases hmhit : List.lookup name memo with
    | some c0 =>
      rw [hmhit] at hok
      simp only [Except.ok.injEq, Prod.mk.injEq] at hok
      refine ⟨hmemo name c0 hmhit, ?_⟩
      rw [← hok.2]
      exact hmemo
    | none =>
      rw [hmhit] at hok
      cases hidx : List.findIdx? (· == name) deps with
      | some idx =>
        rw [hidx] at hok
        dsimp only at hok
        split at hok <;> exact absurd hok (by simp)
      | none =>
        rw [hidx] at hok
        dsimp only at hok
        cases hbase : color.base with
        | hex h =>
          rw [hbase] at hok
          replace hok :
              Except.ok (E.applyModifiers h color.modifiers,
                (name, E.applyModifiers h color.modifiers) :: memo) =
              Except.ok (v, memo') := hok
          simp only [Except.ok.injEq, Prod.mk.injEq] at hok
          refine ⟨Terminating.hex name color h hn hbase, ?_⟩
          intro s w hw
          rw [← hok.2] at hw
          by_cases hs : s = name
          · subst hs
            exact Terminating.hex s color h hn hbase
          · rw [lookup_cons_ne _ _ _ _ hs] at hw
            exact hmemo s w hw
        | paletteReference r =>
          rw [hbase] at hok
          dsimp only at hok
          cases hlr : List.lookup r p with
          | none =>
            rw [hlr] at hok
            exact absurd hok (by simp [Except.bind])
          | some depColor =>
            rw [hlr] at hok
            dsimp only at hok
            cases hrec : resolveColor E p fuel r depColor memo (deps ++ [name]) with
            | error e =>
              rw [hrec] at hok
              exact absurd hok (by simp [Except.bind])
            | ok rm =>
              rw [hrec] at hok
              obtain ⟨vr, memo''⟩ := rm
              replace hok :
                  Except.ok (E.applyModifiers vr color.modifiers,
                    (name, E.applyModifiers vr color.modifiers) :: memo'') =
                  Except.ok (v, memo') := hok
              simp only [Except.ok.injEq, Prod.mk.injEq] at hok
              obtain ⟨htr, hmemo''⟩ :=
                ih r depColor memo memo'' (deps ++ [name]) vr hrec hlr hmemo
              have htn : Terminating p name :=
                Terminating.ref name color r hn hbase htr
              refine ⟨htn, ?_⟩
              intro s w hw
              rw [← hok.2] at hw
              by_cases hs : s = name
              · subst hs; exact htn
              · rw [lookup_cons_ne _ _ _ _ hs] at hw
                exact hmemo'' s w hw

lemma resolve_fold_terminating (E : Ext) (p : List (String × Color)) :
    ∀ (entries : List (String × Color)) (memo m : List (String × HexColor)),
    (∀ s w, List.lookup s memo = some w → Terminating p s) →
    (∀ pr ∈ entries, List.lookup pr.1 p = some pr.2) →
    entries.foldlM
      (fun resolutions pr =>
        (resolveColor E p (p.length + 1) pr.1 pr.2 resolutions []).map (·.2))
      memo = .ok m →
    ∀ pr ∈ entries, Terminating p pr.1 := by
  intro entries
  induction entries with
  | nil => intro memo m _ _ _ pr h; simp at h
  | cons e rest ih =>
    intro memo m hmemo hl hok pr hpr
    rw [List.foldlM_cons] at hok
    cases hstep : resolveColor E p (p.length + 1) e.1 e.2 memo [] with
    | error err =>
      rw [hstep] at hok
      replace hok : (Except.error err : Except ZErr (List (String × HexColor))) >>=
          (fun init => rest.foldlM
            (fun resolutions pr =>
              (resolveColor E p (p.length + 1) pr.1 pr.2 resolutions []).map (·.2))
            init) = .ok m := hok
      rw [except_error_bind] at hok
      exact absurd hok (by simp)
    | ok rm =>
      rw [hstep] at hok
      obtain ⟨v, memo'⟩ := rm
      replace hok : rest.foldlM
          (fun resolutions pr =>
            (resolveColor E p (p.length + 1) pr.1 pr.2 resolutions []).map (·.2))
          memo' = .ok m := hok
      obtain ⟨hte, hmemo'⟩ :=
        resolveColor_terminating E p (p.length + 1) e.1 e.2 memo memo' [] v hstep
          (hl e (List.mem_cons_self e rest)) hmemo
      rcases List.mem_cons.mp hpr with rfl | hpr'
      · exact hte
      · exact ih memo' m hmemo' (fun q hq => hl q (List.mem_cons_of_mem e hq)) hok pr hpr'

/-- C4: `Palette::resolve` fails whenever an entry transitively depends on
itself; an entry whose base references its own name fails with the distinct
"depends on itself" report; and the cycle `a → b → c → a` fails with the
full chain `[a, b, c]` before repeating `a` (the embedding resolves entries
in list order, standing in for the map's iteration order, so the chase
starts at `a`). -/
theorem c4_cycle_detection :
    (∀ (E : Ext) (p : List (String × Color)), (p.map Prod.fst).Nodup →
       ∀ n c, (n, c) ∈ p → CyclicAt p n → ∃ e, resolve E p = .error e) ∧
    (∀ E : Ext, resolve E palSelf = .error (.selfCycle "a")) ∧
    (∀ E : Ext, resolve E palCycle = .error (.cycle ["a", "b", "c"])) := by
  refine ⟨?_, fun E => by rfl, fun E => by rfl⟩
  intro E p hnd n c hm hcyc
  cases hres : resolve E p with
  | error e => exact ⟨e, rfl⟩
  | ok m =>
    have ht : Terminating p n :=
      resolve_fold_terminating E p p [] m (by intro s w h; simp at h)
        (fun pr hpr => nodup_keys_lookup p hnd pr.1 pr.2 hpr) hres (n, c) hm
    exact absurd hcyc (terminating_not_cyclic p n ht)

/-- C4 witness: the general failure statement applied to the concrete
three-element cycle. -/
theorem c4_witness : ∃ e, resolve extModel palCycle = .error e :=
  c4_cycle_detection.1 extModel palCycle (by decide) "a" (refTo "b")
    (by decide) ⟨3, by omega, by decide⟩

/-! ## C5 — resolution is confluent -/

lemma specVal_mono (E : Ext) (p : List (String × Color)) :
    ∀ (f f' : Nat) (c : Color) (v : HexColor), f ≤ f' →
    specVal E p f c = some v → specVal E p f' c = some v := by
  intro f
  induction f with
  | zero => intro f' c v _ h; exact absurd h (by simp [specVal])
  | succ f ih =>
    intro f' c v hle h
    obtain ⟨f'', rfl⟩ : ∃ f'', f' = f'' + 1 := ⟨f' - 1, by omega⟩
    rw [specVal] at h ⊢
    cases hbase : c.base with
    | hex hx =>
      rw [hbase] at h
      exact h
    | paletteReference r =>
      rw [hbase] at h
      dsimp only at h ⊢
      cases hlr : List.lookup r p with
      | none =>
        rw [hlr] at h
        dsimp only at h
        exact absurd h (by simp)
      | some c' =>
        rw [hlr] at h
        dsimp only at h ⊢
        cases hs : specVal E p f c' with
        | none =>
          rw [hs] at h
          exact absurd h (by simp)
        | some w =>
          rw [hs] at h
          rw [ih f'' c' w (by omega) hs]
          exact h

lemma specVal_agree (E : Ext) (p : List (String × Color))
    (f f' : Nat) (c : Color) (v v' : HexColor)
    (h : specVal E p f c = some v) (h' : specVal E p f' c = some v') :
    v = v' := by
  rcases Nat.le_total f f' with hle | hle
  · have h2 := specVal_mono E p f f' c v hle h
    rw [h2] at h'
    exact Option.some.inj h'
  · have h2 := specVal_mono E p f' f c v' hle h'
    rw [h2] at h
    exact (Option.some.inj h).symm

lemma specIs_agree (E : Ext) (p : List (String × Color)) (c : Color)
    (v v' : HexColor) (h : SpecIs E p c v) (h' : SpecIs E p c v') : v = v' := by
  obtain ⟨f, hf⟩ := h
  obtain ⟨f', hf'⟩ := h'
  exact specVal_agree E p f f' c v v' hf hf'

lemma mem_of_lookup {α : Type} (l : List (String × α)) (k : String) (v : α)
    (h : List.lookup k l = some v) : (k, v) ∈ l := by
  induction l with
  | nil => simp at h
  | cons pr rest ih =>
    obtain ⟨pk, pv⟩ := pr
    by_cases hk : k = pk
    · subst hk
      rw [List.lookup_cons_self] at h
      rw [List.mem_cons]
      exact Or.inl (by rw [Option.some.inj h])
    · rw [lookup_cons_ne _ _ _ _ hk] at h
      exact List.mem_cons_of_mem _ (ih h)

lemma key_mem_of_lookup {α : Type} (l : List (String × α)) (k : String)
    (v : α) (h : List.lookup k l = some v) : k ∈ l.map Prod.fst :=
  List.mem_map.mpr ⟨(k, v), mem_of_lookup l k v h, rfl⟩

lemma spec_exists (E : Ext) (p : List (String × Color)) (rank : String → Nat)
    (href : ∀ pr ∈ p, ∀ r, pr.2.base = BaseColorKind.paletteReference r →
      ∃ c', List.lookup r p = some c')
    (hrank : ∀ pr ∈ p, ∀ r, pr.2.base = BaseColorKind.paletteReference r →
      rank r < rank pr.1) :
    ∀ (k : Nat) (n : String) (c : Color), rank n < k →
    List.lookup n p = some c →
    ∃ v, specVal E p (rank n + 1) c = some v := by
  intro k
  induction k with
  | zero => intro n c h _; exact absurd h (by omega)
  | succ k ih =>
    intro n c hn hl
    cases hbase : c.base with
    | hex hx =>
      refine ⟨E.applyModifiers hx c.modifiers, ?_⟩
      rw [specVal, hbase]
    | paletteReference r =>
      have hmem : (n, c) ∈ p := mem_of_lookup p n c hl
      obtain ⟨c', hlr⟩ := href (n, c) hmem r hbase
      have hr : rank r < rank n := hrank (n, c) hmem r hbase
      obtain ⟨v', hv'⟩ := ih r c' (by omega) hlr
      refine ⟨E.applyModifiers v' c.modifiers, ?_⟩
      rw [specVal, hbase]
      dsimp only
      rw [hlr]
      dsimp only
      rw [specVal_mono E p (rank r + 1) (rank n) c' v' (by omega) hv']
      rfl

lemma resolveColor_complete (E : Ext) (p : List (String × Color))
    (rank : String → Nat)
    (_hnd : (p.map Prod.fst).Nodup)
    (href : ∀ pr ∈ p, ∀ r, pr.2.base = BaseColorKind.paletteReference r →
      ∃ c', List.lookup r p = some c')
    (hrank : ∀ pr ∈ p, ∀ r, pr.2.base = BaseColorKind.paletteReference r →
      rank r < rank pr.1) :
    ∀ (fuel : Nat) (name : String) (color : Color)
      (memo : List (String × HexColor)) (deps : List String),
    List.lookup name p = some color →
    p.length + 1 ≤ fuel + deps.length →
    deps.Nodup →
    (∀ d ∈ deps, d ∈ p.map Prod.fst) →
    (∀ d ∈ deps, rank name < rank d) →
    MemoOK E p memo →
    ∃ v memo',
      resolveColor E p fuel name color memo deps = .ok (v, memo') ∧
      List.lookup name memo' = some v ∧
      SpecIs E p color v ∧ MemoOK E p memo' ∧
      (∀ s w, List.lookup s memo = some w → List.lookup s memo' = some w) ∧
      (∀ d ∈ deps, List.lookup d memo' = List.lookup d memo) := by
  intro fuel
  induction fuel with
  | zero =>
    intro name color memo deps _ hfuel hdnd hdsub _ _
    exfalso
    have hsub : deps.Subperm (p.map Prod.fst) := hdnd.subperm hdsub
    have := hsub.length_le
    rw [List.length_map] at this
    omega
  | succ fuel ih =>
    intro name color memo deps hn hfuel hdnd hdsub hdrank hmemo
    have hnmem : name ∈ p.map Prod.fst := key_mem_of_lookup p name color hn
    cases hmhit : List.lookup name memo with
    | some w =>
      obtain ⟨-, c0, hc0, hspec0⟩ := hmemo name w hmhit
      have hc0' : c0 = color := by
        rw [hn] at hc0
        exact (Option.some.inj hc0).symm
      subst hc0'
      refine ⟨w, memo, ?_, hmhit, hspec0, hmemo, fun s w h => h, fun d _ => rfl⟩
      rw [resolveColor, hmhit]
    | none =>
      have hnotdep : name ∉ deps := by
        intro hmem
        exact absurd (hdrank name hmem) (by omega)
      have hidx : List.findIdx? (· == name) deps = none := by
        rw [List.findIdx?_eq_none_iff]
        intro d hd
        simp only [beq_eq_false_iff_ne]
        intro he
        exact hnotdep (he ▸ hd)
      cases hbase : color.base with
      | hex hx =>
        refine ⟨E.applyModifiers hx color.modifiers,
          (name, E.applyModifiers hx color.modifiers) :: memo, ?_, ?_, ?_, ?_, ?_, ?_⟩
        · rw [resolveColor, hmhit, hidx]
          dsimp only
          rw [hbase]
          rfl
        · exact List.lookup_cons_self
        · exact ⟨1, by rw [specVal, hbase]⟩
        · intro s w hw
          by_cases hs : s = name
          · subst hs
            rw [List.lookup_cons_self] at hw
            refine ⟨hnmem, color, hn, ?_⟩
            rw [← Option.some.inj hw]
            exact ⟨1, by rw [specVal, hbase]⟩
          · rw [lookup_cons_ne _ _ _ _ hs] at hw
            exact hmemo s w hw
        · intro s w hw
          have hs : s ≠ name := by
            intro he
            rw [he, hmhit] at hw
            exact absurd hw (by simp)
          rw [lookup_cons_ne _ _ _ _ hs]
          exact hw
        · intro d hd
          have hdn : d ≠ name := fun he => hnotdep (he ▸ hd)
          rw [lookup_cons_ne _ _ _ _ hdn]
      | paletteReference r =>
        have hpmem : (name, color) ∈ p := mem_of_lookup p name color hn
        obtain ⟨c', hlr⟩ := href (name, color) hpmem r hbase
        have hrrank : rank r < rank name := hrank (name, color) hpmem r hbase
        have hdnd' : (deps ++ [name]).Nodup := by
          rw [List.nodup_append]
          exact ⟨hdnd, List.nodup_singleton name,
            fun d hd he => hnotdep (List.mem_singleton.mp he ▸ hd)⟩
        obtain ⟨vr, memo'', hrec, hlook'', hspecr, hmemo'', hpres'', hstab''⟩ :=
          ih r c' memo (deps ++ [name]) hlr
            (by rw [List.length_append, List.length_singleton]; omega)
            hdnd'
            (by
              intro d hd
              rcases List.mem_append.mp hd with hd | hd
              · exact hdsub d hd
              · rw [List.mem_singleton.mp hd]
                exact hnmem)
            (by
              intro d hd
              rcases List.mem_append.mp hd with hd | hd
              · exact lt_trans hrrank (hdrank d hd)
              · rw [List.mem_singleton.mp hd]
                exact hrrank)
            hmemo
        have hspecn : SpecIs E p color (E.applyModifiers vr color.modifiers) := by
          obtain ⟨f, hf⟩ := hspecr
          refine ⟨f + 1, ?_⟩
          rw [specVal, hbase]
          dsimp only
          rw [hlr]
          dsimp only
          rw [hf]
          rfl
        have hnameout : List.lookup name memo'' = none := by
          rw [hstab'' name (List.mem_append.mpr (Or.inr (List.mem_singleton.mpr rfl)))]
          exact hmhit
        refine ⟨E.applyModifiers vr color.modifiers,
          (name, E.applyModifiers vr color.modifiers) :: memo'', ?_, ?_, hspecn, ?_, ?_, ?_⟩
        · rw [resolveColor, hmhit, hidx]
          dsimp only
          rw [hbase]
          dsimp only
          rw [hlr]
          dsimp only
          rw [hrec]
          rfl
        · exact List.lookup_cons_self
        · intro s w hw
          by_cases hs : s = name
          · subst hs
            rw [List.lookup_cons_self] at hw
            refine ⟨hnmem, color, hn, ?_⟩
            rw [← Option.some.inj hw]
            exact hspecn
          · rw [lookup_cons_ne _ _ _ _ hs] at hw
            exact hmemo'' s w hw
        · intro s w hw
          have hs : s ≠ name := by
            intro he
            rw [he, hmhit] at hw
            exact absurd hw (by simp)
          rw [lookup_cons_ne _ _ _ _ hs]
          exact hpres'' s w hw
        · intro d hd
          have hdn : d ≠ name := fun he => hnotdep (he ▸ hd)
          rw [lookup_cons_ne _ _ _ _ hdn]
          exact hstab'' d (List.mem_append.mpr (Or.inl hd))

lemma resolve_fold_complete (E : Ext) (p : List (String × Color))
    (rank : String → Nat)
    (hnd : (p.map Prod.fst).Nodup)
    (href : ∀ pr ∈ p, ∀ r, pr.2.base = BaseColorKind.paletteReference r →
      ∃ c', List.lookup r p = some c')
    (hrank : ∀ pr ∈ p, ∀ r, pr.2.base = BaseColorKind.paletteReference r →
      rank r < rank pr.1) :
    ∀ (entries : List (String × Color)) (memo : List (String × HexColor)),
    (∀ pr ∈ entries, List.lookup pr.1 p = some pr.2) →
    MemoOK E p memo →
    ∃ m, entries.foldlM
        (fun resolutions pr =>
          (resolveColor E p (p.length + 1) pr.1 pr.2 resolutions []).map (·.2))
        memo = .ok m ∧
      MemoOK E p m ∧
      (∀ s w, List.lookup s memo = some w → List.lookup s m = some w) ∧
      (∀ pr ∈ entries, ∃ v, List.lookup pr.1 m = some v ∧ SpecIs E p pr.2 v) := by
  intro entries
  induction entries with
  | nil =>
    intro memo _ hmemo
    exact ⟨memo, rfl, hmemo, fun s w h => h, fun pr h => absurd h (by simp)⟩
  | cons e rest ihe =>
    intro memo hl hmemo
    obtain ⟨v, memo', hrc, hlook, hspec, hmemo', hpres, -⟩ :=
      resolveColor_complete E p rank hnd href hrank (p.length + 1) e.1 e.2 memo []
        (hl e (List.mem_cons_self e rest)) (by simp) List.nodup_nil
        (by intro d hd; simp at hd) (by intro d hd; simp at hd) hmemo
    obtain ⟨m, hfold, hmok, hpres2, hall⟩ :=
      ihe memo' (fun q hq => hl q (List.mem_cons_of_mem e hq)) hmemo'
    refine ⟨m, ?_, hmok, ?_, ?_⟩
    · rw [List.foldlM_cons, hrc]
      dsimp only [Except.map]
      rw [except_ok_bind]
      exact hfold
    · intro s w hw
      exact hpres2 s w (hpres s w hw)
    · intro pr hpr
      rcases List.mem_cons.mp hpr with rfl | hpr'
      · exact ⟨v, hpres2 pr.1 v hlook, hspec⟩
      · exact hall pr hpr'

lemma lookup_perm (p q : List (String × Color)) (hpq : p.Perm q)
    (hnd : (p.map Prod.fst).Nodup) (a : String) :
    List.lookup a p = List.lookup a q := by
  have hndq : (q.map Prod.fst).Nodup := ((hpq.map Prod.fst).nodup_iff).mp hnd
  cases hp : List.lookup a p with
  | some c =>
    have : (a, c) ∈ q := hpq.mem_iff.mp (mem_of_lookup p a c hp)
    exact (nodup_keys_lookup q hndq a c this).symm
  | none =>
    cases hq : List.lookup a q with
    | none => rfl
    | some c =>
      have : (a, c) ∈ p := hpq.mem_iff.mpr (mem_of_lookup q a c hq)
      rw [nodup_keys_lookup p hnd a c this] at hp
      exact absurd hp (by simp)

lemma specVal_perm (E : Ext) (p q : List (String × Color)) (hpq : p.Perm q)
    (hnd : (p.map Prod.fst).Nodup) :
    ∀ (f : Nat) (c : Color), specVal E p f c = specVal E q f c := by
  intro f
  induction f with
  | zero => intro c; rfl
  | succ f ih =>
    intro c
    rw [specVal, specVal]
    cases hbase : c.base with
    | hex hx => rfl
    | paletteReference r =>
      dsimp only
      rw [lookup_perm p q hpq hnd r]
      cases List.lookup r q with
      | none => rfl
      | some c' =>
        dsimp only
        rw [ih c']

/-- C5: for an acyclic palette (witnessed by a rank function that strictly
decreases along every reference edge) in which every reference names an
existing entry, `resolve` succeeds, and the resulting mapping is the same
for every permutation of the entry order; moreover every entry's value is
its base's fully resolved colour with the entry's own modifiers applied
(the reference chase `specVal`). -/
theorem c5_resolution_confluent (E : Ext) (p q : List (String × Color))
    (rank : String → Nat) (hpq : p.Perm q)
    (hnd : (p.map Prod.fst).Nodup)
    (href : ∀ pr ∈ p, ∀ r, pr.2.base = BaseColorKind.paletteReference r →
      ∃ c', List.lookup r p = some c')
    (hrank : ∀ pr ∈ p, ∀ r, pr.2.base = BaseColorKind.paletteReference r →
      rank r < rank pr.1) :
    ∃ mp mq, resolve E p = .ok mp ∧ resolve E q = .ok mq ∧
      (∀ s, List.lookup s mp = List.lookup s mq) ∧
      (∀ pr ∈ p, ∃ v, List.lookup pr.1 mp = some v ∧ SpecIs E p pr.2 v) := by
  have hndq : (q.map Prod.fst).Nodup := ((hpq.map Prod.fst).nodup_iff).mp hnd
  have hlookeq : ∀ a, List.lookup a p = List.lookup a q :=
    lookup_perm p q hpq hnd
  have hrefq : ∀ pr ∈ q, ∀ r, pr.2.base = BaseColorKind.paletteReference r →
      ∃ c', List.lookup r q = some c' := by
    intro pr hpr r hb
    obtain ⟨c', hc'⟩ := href pr (hpq.mem_iff.mpr hpr) r hb
    exact ⟨c', by rw [← hlookeq r]; exact hc'⟩
  have hrankq : ∀ pr ∈ q, ∀ r, pr.2.base = BaseColorKind.paletteReference r →
      rank r < rank pr.1 := fun pr hpr r hb => hrank pr (hpq.mem_iff.mpr hpr) r hb
  obtain ⟨mp, hmp, hmokp, -, hallp⟩ :=
    resolve_fold_complete E p rank hnd href hrank p []
      (fun pr hpr => nodup_keys_lookup p hnd pr.1 pr.2 hpr)
      (by intro s w h; simp at h)
  obtain ⟨mq, hmq, hmokq, -, hallq⟩ :=
    resolve_fold_complete E q rank hndq hrefq hrankq q []
      (fun pr hpr => nodup_keys_lookup q hndq pr.1 pr.2 hpr)
      (by intro s w h; simp at h)
  have hspec_pq : ∀ c v, SpecIs E q c v → SpecIs E p c v := by
    rintro c v ⟨f, hf⟩
    exact ⟨f, by rw [specVal_perm E p q hpq hnd f c]; exact hf⟩
  refine ⟨mp, mq, hmp, hmq, ?_, hallp⟩
  intro s
  cases hs : List.lookup s mp with
  | some v =>
    obtain ⟨hsmem, c, hc, hspec⟩ := hmokp s v hs
    have hcq : (s, c) ∈ q := hpq.mem_iff.mp (mem_of_lookup p s c hc)
    obtain ⟨v', hv', hspecq⟩ := hallq (s, c) hcq
    have : v = v' := specIs_agree E p c v v' hspec (hspec_pq c v' hspecq)
    rw [hv', this]
  | none =>
    cases hq : List.lookup s mq with
    | none => rfl
    | some w =>
      obtain ⟨hsmem, c, hc, -⟩ := hmokq s w hq
      have hcp : (s, c) ∈ p := hpq.mem_iff.mpr (mem_of_lookup q s c hc)
      obtain ⟨v, hv, -⟩ := hallp (s, c) hcp
      rw [hv] at hs
      exact absurd hs (by simp)

/-- C5 witness: the confluence statement applied to a concrete two-entry
acyclic palette and its reversal, with an explicit rank function. -/
theorem c5_witness :
    ∃ mp mq, resolve extModel palChain = .ok mp ∧
      resolve extModel [("base", { base := .hex redC }), ("fg", refTo "base")] = .ok mq ∧
      (∀ s, List.lookup s mp = List.lookup s mq) ∧
      (∀ pr ∈ palChain, ∃ v, List.lookup pr.1 mp = some v ∧
        SpecIs extModel palChain pr.2 v) :=
  c5_resolution_confluent extModel palChain
    [("base", { base := .hex redC }), ("fg", refTo "base")]
    (fun n => if n = "base" then 0 else 1)
    (by decide) (by decide)
    (by
      intro pr hpr r hb
      fin_cases hpr
      · simp only [refTo, BaseColorKind.paletteReference.injEq] at hb
        subst hb
        exact ⟨{ base := .hex redC }, by decide⟩
      · exact BaseColorKind.noConfusion hb)
    (by
      intro pr hpr r hb
      fin_cases hpr
      · simp only [refTo, BaseColorKind.paletteReference.injEq] at hb
        subst hb
        decide
      · exact BaseColorKind.noConfusion hb)

/-! ## C10 — `parse_hex_color` -/

lemma ofBytesLE_lt : ∀ (xs : List Nat), (∀ b ∈ xs, b < 256) →
    ofBytesLE xs < 256 ^ xs.length := by
  intro xs
  induction xs with
  | nil => intro _; simp [ofBytesLE]
  | cons b bs ih =>
    intro h
    have hb : b < 256 := h b (by simp)
    have ht := ih fun x hx => h x (by simp [hx])
    simp only [ofBytesLE, List.length_cons, pow_succ]
    omega

lemma mod256_factor (h Q M : Nat) (hh : h < 256) (hM : 0 < M) :
    (h + 256 * Q) % (256 * M) = h + 256 * (Q % M) := by
  have h1 : h + 256 * Q ≡ h + 256 * (Q % M) [MOD 256 * M] :=
    Nat.ModEq.add_left h (Nat.ModEq.mul_left' 256 (Nat.mod_modEq Q M).symm)
  have h2 : h + 256 * (Q % M) < 256 * M := by
    have := Nat.mod_lt Q hM
    omega
  calc (h + 256 * Q) % (256 * M) = (h + 256 * (Q % M)) % (256 * M) := h1
    _ = h + 256 * (Q % M) := Nat.mod_eq_of_lt h2

lemma rippleSub_length : ∀ (xs ys : List Nat) (bin : Nat),
    (rippleSub xs ys bin).length = xs.length := by
  intro xs
  induction xs with
  | nil => intro ys bin; rfl
  | cons x xs ih => intro ys bin; simp [rippleSub, ih]

lemma rippleSub_lanes : ∀ (xs ys : List Nat) (bin : Nat),
    ∀ l ∈ rippleSub xs ys bin, l < 256 := by
  intro xs
  induction xs with
  | nil => intro ys bin l hl; simp [rippleSub] at hl
  | cons x xs ih =>
    intro ys bin l hl
    simp only [rippleSub, List.mem_cons] at hl
    rcases hl with h | h
    · subst h; exact Nat.mod_lt _ (by omega)
    · exact ih _ _ l h

lemma rippleAdd_length : ∀ (xs ys : List Nat) (cin : Nat),
    (rippleAdd xs ys cin).length = xs.length := by
  intro xs
  induction xs with
  | nil => intro ys cin; rfl
  | cons x xs ih => intro ys cin; simp [rippleAdd, ih]

lemma rippleAdd_lanes : ∀ (xs ys : List Nat) (cin : Nat),
    ∀ l ∈ rippleAdd xs ys cin, l < 256 := by
  intro xs
  induction xs with
  | nil => intro ys cin l hl; simp [rippleAdd] at hl
  | cons x xs ih =>
    intro ys cin l hl
    simp only [rippleAdd, List.mem_cons] at hl
    rcases hl with h | h
    · subst h; exact Nat.mod_lt _ (by omega)
    · exact ih _ _ l h

lemma rippleSub_correct : ∀ (xs ys : List Nat) (bin : Nat),
    ys.length = xs.length → (∀ b ∈ xs, b < 256) → (∀ b ∈ ys, b < 256) →
    bin ≤ 1 →
    ofBytesLE (rippleSub xs ys bin) =
      (ofBytesLE xs + 256 ^ xs.length - (ofBytesLE ys + bin)) %
        256 ^ xs.length := by
  intro xs
  induction xs with
  | nil =>
    intro ys bin hlen _ _ hbin
    have hys : ys = [] := List.length_eq_zero.mp hlen
    subst hys
    simp [rippleSub, ofBytesLE]
    omega
  | cons x xs ih =>
    intro ys bin hlen hx hy hbin
    rcases ys with _ | ⟨y, ys⟩
    · simp at hlen
    have hxb : x < 256 := hx x (by simp)
    have hyb : y < 256 := hy y (by simp)
    have hX := ofBytesLE_lt xs fun b hb => hx b (by simp [hb])
    have hY : ofBytesLE ys < 256 ^ xs.length := by
      have h0 := ofBytesLE_lt ys fun b hb => hy b (by simp [hb])
      have hl : ys.length = xs.length := by simpa using hlen
      rwa [hl] at h0
    have hbout : 1 - (x + 256 - (y + bin)) / 256 ≤ 1 := by omega
    have ihh := ih ys (1 - (x + 256 - (y + bin)) / 256) (by simpa using hlen)
      (fun b hb => hx b (by simp [hb])) (fun b hb => hy b (by simp [hb])) hbout
    show (x + 256 - (y + bin)) % 256 +
        256 * ofBytesLE (rippleSub xs ys (1 - (x + 256 - (y + bin)) / 256)) =
      (x + 256 * ofBytesLE xs + 256 ^ (xs.length + 1) -
        (y + 256 * ofBytesLE ys + bin)) % 256 ^ (xs.length + 1)
    rw [ihh]
    have hpow : (256 : Nat) ^ (xs.length + 1) = 256 * 256 ^ xs.length := by
      rw [pow_succ]; ring
    rw [hpow]
    have key : x + 256 * ofBytesLE xs + 256 * 256 ^ xs.length -
        (y + 256 * ofBytesLE ys + bin) =
      (x + 256 - (y + bin)) % 256 +
        256 * (ofBytesLE xs + 256 ^ xs.length -
          (ofBytesLE ys + (1 - (x + 256 - (y + bin)) / 256))) := by
      omega
    rw [key, mod256_factor _ _ _ (Nat.mod_lt _ (by omega)) (by positivity)]

lemma rippleAdd_correct : ∀ (xs ys : List Nat) (cin : Nat),
    ys.length = xs.length → (∀ b ∈ xs, b < 256) → (∀ b ∈ ys, b < 256) →
    cin ≤ 1 →
    ofBytesLE (rippleAdd xs ys cin) =
      (ofBytesLE xs + ofBytesLE ys + cin) % 256 ^ xs.length := by
  intro xs
  induction xs with
  | nil =>
    intro ys cin hlen _ _ hcin
    have hys : ys = [] := List.length_eq_zero.mp hlen
    subst hys
    simp [rippleAdd, ofBytesLE]
    omega
  | cons x xs ih =>
    intro ys cin hlen hx hy hcin
    rcases ys with _ | ⟨y, ys⟩
    · simp at hlen
    have hxb : x < 256 := hx x (by simp)
    have hyb : y < 256 := hy y (by simp)
    have hX := ofBytesLE_lt xs fun b hb => hx b (by simp [hb])
    have hY : ofBytesLE ys < 256 ^ xs.length := by
      have h0 := ofBytesLE_lt ys fun b hb => hy b (by simp [hb])
      have hl : ys.length = xs.length := by simpa using hlen
      rwa [hl] at h0
    have hcout : (x + y + cin) / 256 ≤ 1 := by omega
    have ihh := ih ys ((x + y + cin) / 256) (by simpa using hlen)
      (fun b hb => hx b (by simp [hb])) (fun b hb => hy b (by simp [hb])) hcout
    show (x + y + cin) % 256 +
        256 * ofBytesLE (rippleAdd xs ys ((x + y + cin) / 256)) =
      (x + 256 * ofBytesLE xs + (y + 256 * ofBytesLE ys) + cin) %
        256 ^ (xs.length + 1)
    rw [ihh]
    have hpow : (256 : Nat) ^ (xs.length + 1) = 256 * 256 ^ xs.length := by
      rw [pow_succ]; ring
    rw [hpow]
    have key : x + 256 * ofBytesLE xs + (y + 256 * ofBytesLE ys) + cin =
      (x + y + cin) % 256 +
        256 * (ofBytesLE xs + ofBytesLE ys + (x + y + cin) / 256) := by
      omega
    rw [key, mod256_factor _ _ _ (Nat.mod_lt _ (by omega)) (by positivity)]

lemma testBit_byte (x X : Nat) (hx : x < 256) (j : Nat) :
    (x + 256 * X).testBit j =
      if j < 8 then x.testBit j else X.testBit (j - 8) := by
  have h : x + 256 * X = 2 ^ 8 * X + x := by ring
  rw [h]
  exact Nat.testBit_mul_pow_two_add X (by omega) j

lemma lor_byte (x y X Y : Nat) (hx : x < 256) (hy : y < 256) :
    (x + 256 * X) ||| (y + 256 * Y) = (x ||| y) + 256 * (X ||| Y) := by
  have hxy : x ||| y < 256 := by
    have h8 : x ||| y < 2 ^ 8 := Nat.or_lt_two_pow (by omega) (by omega)
    omega
  apply Nat.eq_of_testBit_eq
  intro j
  rw [Nat.testBit_or, testBit_byte x X hx, testBit_byte y Y hy,
    testBit_byte _ _ hxy]
  by_cases hj : j < 8
  · simp [hj]
  · simp [hj]

lemma land_byte (x y X Y : Nat) (hx : x < 256) (hy : y < 256) :
    (x + 256 * X) &&& (y + 256 * Y) = (x &&& y) + 256 * (X &&& Y) := by
  have hxy : x &&& y < 256 := by
    have h8 : x &&& y < 2 ^ 8 := Nat.and_lt_two_pow x (by omega)
    omega
  apply Nat.eq_of_testBit_eq
  intro j
  rw [Nat.testBit_and, testBit_byte x X hx, testBit_byte y Y hy,
    testBit_byte _ _ hxy]
  by_cases hj : j < 8
  · simp [hj]
  · simp [hj]

lemma ofBytesLE_lor : ∀ (xs ys : List Nat), xs.length = ys.length →
    (∀ b ∈ xs, b < 256) → (∀ b ∈ ys, b < 256) →
    ofBytesLE xs ||| ofBytesLE ys = ofBytesLE (List.zipWith (· ||| ·) xs ys) := by
  intro xs
  induction xs with
  | nil =>
    intro ys hlen _ _
    have hys : ys = [] := List.length_eq_zero.mp hlen.symm
    subst hys; rfl
  | cons x xs ih =>
    intro ys hlen hx hy
    rcases ys with _ | ⟨y, ys⟩
    · simp at hlen
    show (x + 256 * ofBytesLE xs) ||| (y + 256 * ofBytesLE ys) =
      (x ||| y) + 256 * ofBytesLE (List.zipWith (· ||| ·) xs ys)
    rw [lor_byte x y _ _ (hx x (by simp)) (hy y (by simp)),
      ih ys (by simpa using hlen) (fun b hb => hx b (by simp [hb]))
        (fun b hb => hy b (by simp [hb]))]

lemma ofBytesLE_land : ∀ (xs ys : List Nat), xs.length = ys.length →
    (∀ b ∈ xs, b < 256) → (∀ b ∈ ys, b < 256) →
    ofBytesLE xs &&& ofBytesLE ys = ofBytesLE (List.zipWith (· &&& ·) xs ys) := by
  intro xs
  induction xs with
  | nil =>
    intro ys hlen _ _
    have hys : ys = [] := List.length_eq_zero.mp hlen.symm
    subst hys; rfl
  | cons x xs ih =>
    intro ys hlen hx hy
    rcases ys with _ | ⟨y, ys⟩
    · simp at hlen
    show (x + 256 * ofBytesLE xs) &&& (y + 256 * ofBytesLE ys) =
      (x &&& y) + 256 * ofBytesLE (List.zipWith (· &&& ·) xs ys)
    rw [land_byte x y _ _ (hx x (by simp)) (hy y (by simp)),
      ih ys (by simpa using hlen) (fun b hb => hx b (by simp [hb]))
        (fun b hb => hy b (by simp [hb]))]

lemma ofBytesLE_mul (k : Nat) : ∀ (xs : List Nat),
    k * ofBytesLE xs = ofBytesLE (xs.map fun b => k * b) := by
  intro xs
  induction xs with
  | nil => simp [ofBytesLE]
  | cons x xs ih =>
    show k * (x + 256 * ofBytesLE xs) =
      k * x + 256 * ofBytesLE (xs.map fun b => k * b)
    rw [← ih]; ring

lemma ofBytesLE_shiftRight8 (b : Nat) (bs : List Nat) (hb : b < 256) :
    ofBytesLE (b :: bs) >>> 8 = ofBytesLE bs := by
  rw [Nat.shiftRight_eq_div_pow]
  show (b + 256 * ofBytesLE bs) / 2 ^ 8 = ofBytesLE bs
  omega

lemma ofBytesLE_shiftRight16 (b0 b1 : Nat) (bs : List Nat) (h0 : b0 < 256)
    (h1 : b1 < 256) : ofBytesLE (b0 :: b1 :: bs) >>> 16 = ofBytesLE bs := by
  rw [Nat.shiftRight_eq_div_pow]
  show (b0 + 256 * (b1 + 256 * ofBytesLE bs)) / 2 ^ 16 = ofBytesLE bs
  omega

lemma ofBytesLE_append_zeros : ∀ (xs : List Nat) (k : Nat),
    ofBytesLE (xs ++ List.replicate k 0) = ofBytesLE xs := by
  intro xs
  induction xs with
  | nil =>
    intro k
    simp only [List.nil_append]
    induction k with
    | zero => rfl
    | succ n ihk => simpa [List.replicate_succ, ofBytesLE] using ihk
  | cons x xs ih =>
    intro k
    show x + 256 * ofBytesLE (xs ++ List.replicate k 0) = x + 256 * ofBytesLE xs
    rw [ih]

lemma zipWith_replicate_right (f : Nat → Nat → Nat) :
    ∀ (xs : List Nat) (n c : Nat), xs.length ≤ n →
    List.zipWith f xs (List.replicate n c) = xs.map fun x => f x c := by
  intro xs
  induction xs with
  | nil => intro n c _; simp
  | cons x xs ih =>
    intro n c hn
    rcases n with _ | n
    · simp at hn
    simp only [List.replicate_succ, List.zipWith_cons_cons, List.map_cons]
    rw [ih n c (by simpa using hn)]

lemma ofBytesLE_zero_lanes : ∀ (xs : List Nat), (∀ l ∈ xs, l = 0) →
    ofBytesLE xs = 0 := by
  intro xs
  induction xs with
  | nil => intro _; rfl
  | cons x xs ih =>
    intro h
    show x + 256 * ofBytesLE xs = 0
    rw [h x (by simp), ih fun l hl => h l (by simp [hl])]

lemma ofBytesLE_ne_zero : ∀ (xs : List Nat) (l : Nat), l ∈ xs → l ≠ 0 →
    ofBytesLE xs ≠ 0 := by
  intro xs
  induction xs with
  | nil => intro l hl _; simp at hl
  | cons x xs ih =>
    intro l hl hlne
    simp only [List.mem_cons] at hl
    show x + 256 * ofBytesLE xs ≠ 0
    rcases hl with rfl | hl
    · omega
    · have := ih l hl hlne
      omega

lemma zip_lor_lanes : ∀ (xs ys : List Nat), (∀ b ∈ xs, b < 256) →
    (∀ b ∈ ys, b < 256) → ∀ l ∈ List.zipWith (· ||| ·) xs ys, l < 256 := by
  intro xs
  induction xs with
  | nil => intro ys _ _ l hl; simp at hl
  | cons x xs ih =>
    intro ys hx hy l hl
    rcases ys with _ | ⟨y, ys⟩
    · simp at hl
    simp only [List.zipWith_cons_cons, List.mem_cons] at hl
    rcases hl with rfl | hl
    · have h8 : x ||| y < 2 ^ 8 :=
        Nat.or_lt_two_pow (by have := hx x (by simp); omega)
          (by have := hy y (by simp); omega)
      omega
    · exact ih ys (fun b hb => hx b (by simp [hb]))
        (fun b hb => hy b (by simp [hb])) l hl

lemma zip_land_lanes : ∀ (xs ys : List Nat), (∀ b ∈ xs, b < 256) →
    ∀ l ∈ List.zipWith (· &&& ·) xs ys, l < 256 := by
  intro xs
  induction xs with
  | nil => intro ys _ l hl; simp at hl
  | cons x xs ih =>
    intro ys hx l hl
    rcases ys with _ | ⟨y, ys⟩
    · simp at hl
    simp only [List.zipWith_cons_cons, List.mem_cons] at hl
    rcases hl with rfl | hl
    · have : x &&& y ≤ x := Nat.and_le_left
      have := hx x (by simp)
      omega
    · exact ih ys (fun b hb => hx b (by simp [hb])) l hl

lemma pipeline_length : ∀ (bs cs : List Nat) (b1 c2 b3 bd : Nat),
    (pipeline bs cs b1 c2 b3 bd).length = bs.length := by
  intro bs
  induction bs with
  | nil => intro cs b1 c2 b3 bd; rfl
  | cons b bs ih => intro cs b1 c2 b3 bd; simp [pipeline, ih]

lemma pipeline_eq_staged : ∀ (bs cs : List Nat) (bin1 cin2 bin3 bindf : Nat),
    bs.length ≤ cs.length →
    pipeline bs cs bin1 cin2 bin3 bindf =
      stagedLanes bs cs bin1 cin2 bin3 bindf := by
  intro bs
  induction bs with
  | nil => intro cs bin1 cin2 bin3 bindf _; rfl
  | cons b bs ih =>
    intro cs bin1 cin2 bin3 bindf hlen
    rcases cs with _ | ⟨c, cs⟩
    · simp at hlen
    simp only [pipeline, List.headD_cons, List.tail_cons]
    rw [ih cs (laneB1out b bin1) (laneAout (laneB1 b bin1) cin2)
      (laneB3out (laneB1 b bin1) (laneA (laneB1 b bin1) cin2) bin3)
      (laneDout c (laneB3 (laneB1 b bin1) (laneA (laneB1 b bin1) cin2) bin3)
        bindf)
      (by simpa using hlen)]
    simp only [stagedLanes, List.length_cons, List.replicate_succ, rippleSub,
      rippleAdd, List.zipWith_cons_cons, List.map_cons, List.headD_cons,
      List.tail_cons, laneB1, laneB1out, laneA, laneAout, laneB3, laneB3out,
      laneD, laneDout]

set_option maxRecDepth 40000

lemma lane_valid_facts : ∀ b < 256, isHexDigit b = true →
    laneB1out b 0 = 0 ∧ laneAout (laneB1 b 0) 0 = 0 ∧
    laneB3out (laneB1 b 0) (laneA (laneB1 b 0) 0) 0 = 0 ∧
    laneDout 0xf9 (laneB3 (laneB1 b 0) (laneA (laneB1 b 0) 0) 0) 0 = 0 ∧
    laneDout 0x19 (laneB3 (laneB1 b 0) (laneA (laneB1 b 0) 0) 0) 0 = 0 ∧
    laneOut b 0xf9 0 0 0 0 = hexVal b ∧ laneOut b 0x19 0 0 0 0 = hexVal b ∧
    hexVal b < 16 := by decide

lemma lane_invalid_facts : ∀ b < 256, isHexDigit b = false →
    laneOut b 0xf9 0 0 0 0 &&& 0xf0 ≠ 0 ∧
    laneOut b 0x19 0 0 0 0 &&& 0xf0 ≠ 0 := by decide

lemma and240_eq_zero : ∀ v < 16, v &&& 0xf0 = 0 := by decide

lemma lor16_nibbles : ∀ a < 16, ∀ b < 16, b ||| 16 * a = 16 * a + b := by decide

lemma and255_eq_self : ∀ x < 256, x &&& 255 = x := by decide

lemma first_violation (P : Nat → Bool) : ∀ (l : List Nat),
    (∀ x ∈ l, P x = true) ∨
      ∃ pre x post, l = pre ++ x :: post ∧ (∀ y ∈ pre, P y = true) ∧
        P x = false := by
  intro l
  induction l with
  | nil => left; simp
  | cons a l ih =>
    by_cases ha : P a = true
    · rcases ih with h | ⟨pre, x, post, rfl, hpre, hx⟩
      · left
        intro x hx
        rcases List.mem_cons.mp hx with rfl | h'
        · exact ha
        · exact h x h'
      · right
        refine ⟨a :: pre, x, post, rfl, ?_, hx⟩
        intro y hy
        rcases List.mem_cons.mp hy with rfl | hy'
        · exact ha
        · exact hpre y hy'
    · right
      exact ⟨[], a, l, rfl, by simp, by simpa using ha⟩

lemma pipeline_valid : ∀ (bs cs : List Nat), bs.length ≤ cs.length →
    (∀ b ∈ bs, b < 256 ∧ isHexDigit b = true) →
    (∀ c ∈ cs, c = 0xf9 ∨ c = 0x19) →
    pipeline bs cs 0 0 0 0 = bs.map hexVal := by
  intro bs
  induction bs with
  | nil => intro cs _ _ _; rfl
  | cons b bs ih =>
    intro cs hlen hv hcs
    rcases cs with _ | ⟨c, cs⟩
    · simp at hlen
    have hb1 := hv b (by simp)
    have key := lane_valid_facts b hb1.1 hb1.2
    have ihx := ih cs (by simpa using hlen) (fun x hx => hv x (by simp [hx]))
      (fun x hx => hcs x (by simp [hx]))
    show laneOut b c 0 0 0 0 ::
        pipeline bs cs (laneB1out b 0) (laneAout (laneB1 b 0) 0)
          (laneB3out (laneB1 b 0) (laneA (laneB1 b 0) 0) 0)
          (laneDout c (laneB3 (laneB1 b 0) (laneA (laneB1 b 0) 0) 0) 0) = _
    rw [key.1, key.2.1, key.2.2.1]
    rcases hcs c (by simp) with rfl | rfl
    · rw [key.2.2.2.1, key.2.2.2.2.2.1, ihx]; rfl
    · rw [key.2.2.2.2.1, key.2.2.2.2.2.2.1, ihx]; rfl

lemma pipeline_invalid : ∀ (pre : List Nat) (b : Nat) (post cs : List Nat),
    (∀ x ∈ pre, x < 256 ∧ isHexDigit x = true) → b < 256 →
    isHexDigit b = false → (∀ c ∈ cs, c = 0xf9 ∨ c = 0x19) →
    pre.length < cs.length →
    ∃ l ∈ pipeline (pre ++ b :: post) cs 0 0 0 0, l &&& 0xf0 ≠ 0 := by
  intro pre
  induction pre with
  | nil =>
    intro b post cs _ hblt hbbad hcs hlen
    rcases cs with _ | ⟨c, cs⟩
    · simp at hlen
    refine ⟨laneOut b c 0 0 0 0, ?_, ?_⟩
    · show laneOut b c 0 0 0 0 ∈ laneOut b c 0 0 0 0 :: _
      exact List.mem_cons_self _ _
    · rcases hcs c (by simp) with rfl | rfl
      · exact (lane_invalid_facts b hblt hbbad).1
      · exact (lane_invalid_facts b hblt hbbad).2
  | cons p pre ih =>
    intro b post cs hpre hblt hbbad hcs hlen
    rcases cs with _ | ⟨c, cs⟩
    · simp at hlen
    have hp1 := hpre p (by simp)
    have key := lane_valid_facts p hp1.1 hp1.2
    obtain ⟨l, hl, hlne⟩ := ih b post cs (fun x hx => hpre x (by simp [hx]))
      hblt hbbad (fun x hx => hcs x (by simp [hx])) (by simpa using hlen)
    refine ⟨l, ?_, hlne⟩
    show l ∈ laneOut p c 0 0 0 0 ::
        pipeline (pre ++ b :: post) cs (laneB1out p 0)
          (laneAout (laneB1 p 0) 0)
          (laneB3out (laneB1 p 0) (laneA (laneB1 p 0) 0) 0)
          (laneDout c (laneB3 (laneB1 p 0) (laneA (laneB1 p 0) 0) 0) 0)
    rw [key.1, key.2.1, key.2.2.1]
    rcases hcs c (by simp) with rfl | rfl
    · rw [key.2.2.2.1]; exact List.mem_cons_of_mem _ hl
    · rw [key.2.2.2.2.1]; exact List.mem_cons_of_mem _ hl

lemma and16_cases : ∀ x < 256, x &&& 16 = 0 ∨ x &&& 16 = 16 := by decide

lemma eq_sixteen_mul_div : ∀ (l : List Nat), (∀ x ∈ l, x = 0 ∨ x = 16) →
    l = (l.map fun x => x / 16).map fun x => 16 * x := by
  intro l
  induction l with
  | nil => intro _; rfl
  | cons x l ih =>
    intro h
    simp only [List.map_cons]
    rw [← ih fun y hy => h y (by simp [hy])]
    rcases h x (by simp) with rfl | rfl <;> rfl

lemma wsub_bytes (xs ys : List Nat) (hlen : ys.length = xs.length)
    (h8 : xs.length = 8) (hx : ∀ b ∈ xs, b < 256) (hy : ∀ b ∈ ys, b < 256) :
    wsub (ofBytesLE xs) (ofBytesLE ys) = ofBytesLE (rippleSub xs ys 0) := by
  rw [rippleSub_correct xs ys 0 hlen hx hy (by omega), h8]
  have hP : (256 : Nat) ^ 8 = u64Mod := by norm_num [u64Mod]
  have hylt : ofBytesLE ys < u64Mod := by
    have h0 := ofBytesLE_lt ys hy
    rw [hlen, h8] at h0
    omega
  show (ofBytesLE xs + (u64Mod - ofBytesLE ys % u64Mod)) % u64Mod = _
  rw [Nat.mod_eq_of_lt hylt, hP]
  congr 1
  omega

lemma wadd_bytes (xs ys : List Nat) (hlen : ys.length = xs.length)
    (h8 : xs.length = 8) (hx : ∀ b ∈ xs, b < 256) (hy : ∀ b ∈ ys, b < 256) :
    wadd (ofBytesLE xs) (ofBytesLE ys) = ofBytesLE (rippleAdd xs ys 0) := by
  rw [rippleAdd_correct xs ys 0 hlen hx hy (by omega), h8]
  have hP : (256 : Nat) ^ 8 = u64Mod := by norm_num [u64Mod]
  show (ofBytesLE xs + ofBytesLE ys) % u64Mod = _
  rw [hP]
  congr 1

lemma hexTail_pipeline (bs : List Nat) (hlen : bs.length = 8)
    (hb : ∀ b ∈ bs, b < 256) :
    hexTail (ofBytesLE bs) = hexTailLanes (pipeline bs hexConst 0 0 0 0) := by
  have hrep48 : ∀ b ∈ List.replicate 8 (48 : Nat), b < 256 := by
    intro b hb'; rw [List.mem_replicate] at hb'; omega
  have hrep6 : ∀ b ∈ List.replicate 8 (6 : Nat), b < 256 := by
    intro b hb'; rw [List.mem_replicate] at hb'; omega
  have hrep16 : ∀ b ∈ List.replicate 8 (16 : Nat), b < 256 := by
    intro b hb'; rw [List.mem_replicate] at hb'; omega
  have hP : (256 : Nat) ^ 8 = u64Mod := by norm_num [u64Mod]
  -- the digit guess lanes
  have h1 : wsub (ofBytesLE bs) zeroLanes =
      ofBytesLE (rippleSub bs (List.replicate 8 48) 0) := by
    rw [show zeroLanes = ofBytesLE (List.replicate 8 48) from by decide]
    exact wsub_bytes bs _ (by simp [hlen]) hlen hb hrep48
  set B1 := rippleSub bs (List.replicate 8 48) 0 with hB1def
  have hB1len : B1.length = 8 := by rw [hB1def, rippleSub_length, hlen]
  have hB1lanes : ∀ l ∈ B1, l < 256 := by rw [hB1def]; exact rippleSub_lanes _ _ _
  -- the +6 lanes
  have h2 : wadd (ofBytesLE B1) (zeroLanes >>> 3) =
      ofBytesLE (rippleAdd B1 (List.replicate 8 6) 0) := by
    rw [show zeroLanes >>> 3 = ofBytesLE (List.replicate 8 6) from by decide]
    exact wadd_bytes B1 _ (by simp [hB1len]) hB1len hB1lanes hrep6
  set A2 := rippleAdd B1 (List.replicate 8 6) 0 with hA2def
  have hA2len : A2.length = 8 := by rw [hA2def, rippleAdd_length, hB1len]
  have hA2lanes : ∀ l ∈ A2, l < 256 := by rw [hA2def]; exact rippleAdd_lanes _ _ _
  -- above-nine mask lanes
  have h3 : ofBytesLE B1 ||| ofBytesLE A2 =
      ofBytesLE (List.zipWith (· ||| ·) B1 A2) :=
    ofBytesLE_lor B1 A2 (by rw [hB1len, hA2len]) hB1lanes hA2lanes
  set LorBA := List.zipWith (· ||| ·) B1 A2 with hLBAdef
  have hLBAlen : LorBA.length = 8 := by
    rw [hLBAdef]; simp [List.length_zipWith, hB1len, hA2len]
  have hLBAlanes : ∀ l ∈ LorBA, l < 256 := by
    rw [hLBAdef]; exact zip_lor_lanes _ _ hB1lanes hA2lanes
  have h4 : ofBytesLE LorBA &&& sixteenLanes =
      ofBytesLE (List.zipWith (· &&& ·) LorBA (List.replicate 8 16)) := by
    rw [show sixteenLanes = ofBytesLE (List.replicate 8 16) from by decide]
    exact ofBytesLE_land LorBA _ (by simp [hLBAlen]) hLBAlanes hrep16
  set AB := List.zipWith (· &&& ·) LorBA (List.replicate 8 16) with hABdef
  have hABlen : AB.length = 8 := by
    rw [hABdef]; simp [List.length_zipWith, hLBAlen]
  have hABmap : AB = LorBA.map fun x => x &&& 16 := by
    rw [hABdef]; exact zipWith_replicate_right _ _ 8 16 (by rw [hLBAlen])
  have hAB16 : ∀ x ∈ AB, x = 0 ∨ x = 16 := by
    rw [hABmap]
    intro x hx
    obtain ⟨y, hy, rfl⟩ := List.mem_map.mp hx
    exact and16_cases y (hLBAlanes y hy)
  have hABlanes : ∀ l ∈ AB, l < 256 := fun l hl => by
    rcases hAB16 l hl with rfl | rfl <;> omega
  -- the lowercase bit lanes
  have h5 : ofBytesLE AB <<< 1 = ofBytesLE (AB.map fun a => 2 * a) := by
    rw [Nat.shiftLeft_eq, show (2 : Nat) ^ 1 = 2 from rfl, mul_comm,
      ofBytesLE_mul]
  have h2ABlanes : ∀ l ∈ AB.map fun a => 2 * a, l < 256 := by
    intro l hl
    obtain ⟨a, ha, rfl⟩ := List.mem_map.mp hl
    rcases hAB16 a ha with rfl | rfl <;> norm_num
  have h6 : ofBytesLE B1 ||| ofBytesLE (AB.map fun a => 2 * a) =
      ofBytesLE (List.zipWith (· ||| ·) B1 (AB.map fun a => 2 * a)) :=
    ofBytesLE_lor _ _ (by simp [hB1len, hABlen]) hB1lanes h2ABlanes
  set B2 := List.zipWith (· ||| ·) B1 (AB.map fun a => 2 * a) with hB2def
  have hB2len : B2.length = 8 := by
    rw [hB2def]; simp [List.length_zipWith, hB1len, hABlen]
  have hB2lanes : ∀ l ∈ B2, l < 256 := by
    rw [hB2def]; exact zip_lor_lanes _ _ hB1lanes h2ABlanes
  -- the letter-offset lanes
  have hABES : ofBytesLE AB = 16 * ofBytesLE (AB.map fun a => a / 16) := by
    rw [ofBytesLE_mul]
    exact congrArg ofBytesLE (eq_sixteen_mul_div AB hAB16)
  have hM3lanes : ∀ l ∈ AB.map fun a => 39 * (a / 16), l < 256 := by
    intro l hl
    obtain ⟨a, ha, rfl⟩ := List.mem_map.mp hl
    rcases hAB16 a ha with rfl | rfl <;> norm_num
  have hM3len : (AB.map fun a => 39 * (a / 16)).length = 8 := by simp [hABlen]
  have h7 : wmul (ofBytesLE AB >>> 4) 0x27 =
      ofBytesLE (AB.map fun a => 39 * (a / 16)) := by
    rw [Nat.shiftRight_eq_div_pow, hABES]
    rw [show (16 : Nat) * ofBytesLE (AB.map fun a => a / 16) / 2 ^ 4 =
      ofBytesLE (AB.map fun a => a / 16) from by omega]
    show ofBytesLE (AB.map fun a => a / 16) * 39 % u64Mod = _
    rw [mul_comm, ofBytesLE_mul, List.map_map]
    show ofBytesLE (AB.map fun a => 39 * (a / 16)) % u64Mod = _
    apply Nat.mod_eq_of_lt
    have h0 := ofBytesLE_lt _ hM3lanes
    rw [hM3len] at h0
    omega
  have h8 : wsub (ofBytesLE B2) (ofBytesLE (AB.map fun a => 39 * (a / 16))) =
      ofBytesLE (rippleSub B2 (AB.map fun a => 39 * (a / 16)) 0) :=
    wsub_bytes _ _ (by rw [hM3len, hB2len]) hB2len hB2lanes hM3lanes
  set B3 := rippleSub B2 (AB.map fun a => 39 * (a / 16)) 0 with hB3def
  have hB3len : B3.length = 8 := by rw [hB3def, rippleSub_length, hB2len]
  have hB3lanes : ∀ l ∈ B3, l < 256 := by rw [hB3def]; exact rippleSub_lanes _ _ _
  -- the defensive lanes
  have hhexConstLanes : ∀ b ∈ hexConst, b < 256 := by decide
  have h9 : wsub (ofBytesLE hexConst) (ofBytesLE B3) =
      ofBytesLE (rippleSub hexConst B3 0) :=
    wsub_bytes hexConst B3 (by rw [hB3len]; rfl) (by rfl) hhexConstLanes hB3lanes
  set D := rippleSub hexConst B3 0 with hDdef
  have hDlen : D.length = 8 := by rw [hDdef, rippleSub_length]; rfl
  have hDlanes : ∀ l ∈ D, l < 256 := by rw [hDdef]; exact rippleSub_lanes _ _ _
  have h10 : ofBytesLE D &&& ofBytesLE AB =
      ofBytesLE (List.zipWith (· &&& ·) D AB) :=
    ofBytesLE_land D AB (by rw [hDlen, hABlen]) hDlanes hABlanes
  set DA := List.zipWith (· &&& ·) D AB with hDAdef
  have hDAlen : DA.length = 8 := by
    rw [hDAdef]; simp [List.length_zipWith, hDlen, hABlen]
  have hDAlanes : ∀ l ∈ DA, l < 256 := by
    rw [hDAdef]; exact zip_land_lanes _ _ hDlanes
  have h11 : ofBytesLE B3 ||| ofBytesLE DA =
      ofBytesLE (List.zipWith (· ||| ·) B3 DA) :=
    ofBytesLE_lor B3 DA (by rw [hB3len, hDAlen]) hB3lanes hDAlanes
  set B4 := List.zipWith (· ||| ·) B3 DA with hB4def
  have hB4len : B4.length = 8 := by
    rw [hB4def]; simp [List.length_zipWith, hB3len, hDAlen]
  have hB4lanes : ∀ l ∈ B4, l < 256 := by
    rw [hB4def]; exact zip_lor_lanes _ _ hB3lanes hDAlanes
  -- the fused pipeline computes the same lanes
  have hpip : pipeline bs hexConst 0 0 0 0 = B4 := by
    rw [pipeline_eq_staged bs hexConst 0 0 0 0 (by rw [hlen]; rfl)]
    rw [hB4def, hDAdef, hB3def, hB2def, hABdef, hLBAdef, hA2def, hB1def]
    simp only [stagedLanes, hlen]
  -- the overflow mask
  have hmask : ofBytesLE B4 &&& 0xf0f0f0f0f0f0f0f0 =
      ofBytesLE (B4.map fun l => l &&& 0xf0) := by
    rw [show (0xf0f0f0f0f0f0f0f0 : Nat) =
      ofBytesLE (List.replicate 8 240) from by decide]
    rw [ofBytesLE_land B4 _ (by simp [hB4len]) hB4lanes
      (by intro b hb'; rw [List.mem_replicate] at hb'; omega)]
    rw [zipWith_replicate_right _ _ 8 240 (by rw [hB4len])]
  simp only [hexTail, hexTailLanes, hpip]
  rw [h1, h2, h3, h4, h5, h6, h7, h8,
    show (0x19f9f9f9f9f9f9f9 : Nat) = ofBytesLE hexConst from by decide,
    h9, h10, h11, hmask]

lemma hexTailLanes_nibbles (n1 n2 n3 n4 n5 n6 n7 n8 : Nat) (h1 : n1 < 16)
    (h2 : n2 < 16) (h3 : n3 < 16) (h4 : n4 < 16) (h5 : n5 < 16) (h6 : n6 < 16)
    (h7 : n7 < 16) (h8 : n8 < 16) :
    hexTailLanes [n1, n2, n3, n4, n5, n6, n7, n8] =
      some ⟨16 * n1 + n2, 16 * n3 + n4, 16 * n5 + n6, 16 * n7 + n8⟩ := by
  have hmap : [n1, n2, n3, n4, n5, n6, n7, n8].map (fun l => l &&& 0xf0) =
      [0, 0, 0, 0, 0, 0, 0, 0] := by
    simp only [List.map_cons, List.map_nil]
    rw [and240_eq_zero n1 h1, and240_eq_zero n2 h2, and240_eq_zero n3 h3,
      and240_eq_zero n4 h4, and240_eq_zero n5 h5, and240_eq_zero n6 h6,
      and240_eq_zero n7 h7, and240_eq_zero n8 h8]
  simp only [hexTailLanes, hmap]
  rw [if_neg (by decide)]
  -- step 1: shift right by one lane
  have s1 : ofBytesLE [n1, n2, n3, n4, n5, n6, n7, n8] >>> 8 =
      ofBytesLE [n2, n3, n4, n5, n6, n7, n8, 0] := by
    rw [ofBytesLE_shiftRight8 n1 _ (by omega)]
    exact (ofBytesLE_append_zeros [n2, n3, n4, n5, n6, n7, n8] 1).symm
  -- step 2: shift the nybbles up
  have s2 : ofBytesLE [n1, n2, n3, n4, n5, n6, n7, n8] <<< 4 % u64Mod =
      ofBytesLE [16 * n1, 16 * n2, 16 * n3, 16 * n4, 16 * n5, 16 * n6,
        16 * n7, 16 * n8] := by
    rw [Nat.shiftLeft_eq, show (2 : Nat) ^ 4 = 16 from rfl, mul_comm,
      ofBytesLE_mul]
    simp only [List.map_cons, List.map_nil]
    apply Nat.mod_eq_of_lt
    have h0 := ofBytesLE_lt [16 * n1, 16 * n2, 16 * n3, 16 * n4, 16 * n5,
      16 * n6, 16 * n7, 16 * n8] (by
        intro x hx
        simp only [List.mem_cons, List.not_mem_nil, or_false] at hx
        rcases hx with rfl | rfl | rfl | rfl | rfl | rfl | rfl | rfl <;> omega)
    have hP : (256 : Nat) ^
        ([16 * n1, 16 * n2, 16 * n3, 16 * n4, 16 * n5, 16 * n6, 16 * n7,
          16 * n8] : List Nat).length = u64Mod := by norm_num [u64Mod]
    omega
  -- step 3: interleaved pairs
  have s3 : ofBytesLE [n2, n3, n4, n5, n6, n7, n8, 0] |||
      ofBytesLE [16 * n1, 16 * n2, 16 * n3, 16 * n4, 16 * n5, 16 * n6,
        16 * n7, 16 * n8] =
      ofBytesLE [16 * n1 + n2, 16 * n2 + n3, 16 * n3 + n4, 16 * n4 + n5,
        16 * n5 + n6, 16 * n6 + n7, 16 * n7 + n8, 16 * n8] := by
    rw [ofBytesLE_lor _ _ (by simp)
      (by
        intro x hx
        simp only [List.mem_cons, List.not_mem_nil, or_false] at hx
        rcases hx with rfl | rfl | rfl | rfl | rfl | rfl | rfl | rfl <;> omega)
      (by
        intro x hx
        simp only [List.mem_cons, List.not_mem_nil, or_false] at hx
        rcases hx with rfl | rfl | rfl | rfl | rfl | rfl | rfl | rfl <;> omega)]
    refine congrArg ofBytesLE ?_
    simp only [List.zipWith_cons_cons, List.zipWith_nil_left]
    rw [lor16_nibbles n1 h1 n2 h2, lor16_nibbles n2 h2 n3 h3,
      lor16_nibbles n3 h3 n4 h4, lor16_nibbles n4 h4 n5 h5,
      lor16_nibbles n5 h5 n6 h6, lor16_nibbles n6 h6 n7 h7,
      lor16_nibbles n7 h7 n8 h8, Nat.zero_or]
  -- step 4: keep the even lanes
  have s4 : ofBytesLE [16 * n1 + n2, 16 * n2 + n3, 16 * n3 + n4, 16 * n4 + n5,
        16 * n5 + n6, 16 * n6 + n7, 16 * n7 + n8, 16 * n8] &&&
      0x00ff00ff00ff00ff =
      ofBytesLE [16 * n1 + n2, 0, 16 * n3 + n4, 0, 16 * n5 + n6, 0,
        16 * n7 + n8, 0] := by
    rw [show (0x00ff00ff00ff00ff : Nat) =
      ofBytesLE [255, 0, 255, 0, 255, 0, 255, 0] from by decide]
    rw [ofBytesLE_land _ _ (by simp)
      (by
        intro x hx
        simp only [List.mem_cons, List.not_mem_nil, or_false] at hx
        rcases hx with rfl | rfl | rfl | rfl | rfl | rfl | rfl | rfl <;> omega)
      (by
        intro x hx
        simp only [List.mem_cons, List.not_mem_nil, or_false] at hx
        rcases hx with rfl | rfl | rfl | rfl | rfl | rfl | rfl | rfl <;> omega)]
    refine congrArg ofBytesLE ?_
    simp only [List.zipWith_cons_cons, List.zipWith_nil_left, Nat.and_zero]
    rw [and255_eq_self (16 * n1 + n2) (by omega),
      and255_eq_self (16 * n3 + n4) (by omega),
      and255_eq_self (16 * n5 + n6) (by omega),
      and255_eq_self (16 * n7 + n8) (by omega)]
  -- step 5: fold the upper lane of each pair down
  have s5 : ofBytesLE [16 * n1 + n2, 0, 16 * n3 + n4, 0, 16 * n5 + n6, 0,
        16 * n7 + n8, 0] >>> 8 =
      ofBytesLE [0, 16 * n3 + n4, 0, 16 * n5 + n6, 0, 16 * n7 + n8, 0, 0] := by
    rw [ofBytesLE_shiftRight8 _ _ (by omega)]
    exact (ofBytesLE_append_zeros [0, 16 * n3 + n4, 0, 16 * n5 + n6, 0,
      16 * n7 + n8, 0] 1).symm
  have s6 : ofBytesLE [16 * n1 + n2, 0, 16 * n3 + n4, 0, 16 * n5 + n6, 0,
        16 * n7 + n8, 0] |||
      ofBytesLE [0, 16 * n3 + n4, 0, 16 * n5 + n6, 0, 16 * n7 + n8, 0, 0] =
      ofBytesLE [16 * n1 + n2, 16 * n3 + n4, 16 * n3 + n4, 16 * n5 + n6,
        16 * n5 + n6, 16 * n7 + n8, 16 * n7 + n8, 0] := by
    rw [ofBytesLE_lor _ _ (by simp)
      (by
        intro x hx
        simp only [List.mem_cons, List.not_mem_nil, or_false] at hx
        rcases hx with rfl | rfl | rfl | rfl | rfl | rfl | rfl | rfl <;> omega)
      (by
        intro x hx
        simp only [List.mem_cons, List.not_mem_nil, or_false] at hx
        rcases hx with rfl | rfl | rfl | rfl | rfl | rfl | rfl | rfl <;> omega)]
    refine congrArg ofBytesLE ?_
    simp only [List.zipWith_cons_cons, List.zipWith_nil_left, Nat.or_zero,
      Nat.zero_or]
  -- step 6: keep the low pair of each quad
  have s7 : ofBytesLE [16 * n1 + n2, 16 * n3 + n4, 16 * n3 + n4, 16 * n5 + n6,
        16 * n5 + n6, 16 * n7 + n8, 16 * n7 + n8, 0] &&&
      0x0000ffff0000ffff =
      ofBytesLE [16 * n1 + n2, 16 * n3 + n4, 0, 0, 16 * n5 + n6, 16 * n7 + n8,
        0, 0] := by
    rw [show (0x0000ffff0000ffff : Nat) =
      ofBytesLE [255, 255, 0, 0, 255, 255, 0, 0] from by decide]
    rw [ofBytesLE_land _ _ (by simp)
      (by
        intro x hx
        simp only [List.mem_cons, List.not_mem_nil, or_false] at hx
        rcases hx with rfl | rfl | rfl | rfl | rfl | rfl | rfl | rfl <;> omega)
      (by
        intro x hx
        simp only [List.mem_cons, List.not_mem_nil, or_false] at hx
        rcases hx with rfl | rfl | rfl | rfl | rfl | rfl | rfl | rfl <;> omega)]
    refine congrArg ofBytesLE ?_
    simp only [List.zipWith_cons_cons, List.zipWith_nil_left, Nat.and_zero]
    rw [and255_eq_self (16 * n1 + n2) (by omega),
      and255_eq_self (16 * n3 + n4) (by omega),
      and255_eq_self (16 * n5 + n6) (by omega),
      and255_eq_self (16 * n7 + n8) (by omega)]
  -- step 7: fold the upper pair down
  have s8 : ofBytesLE [16 * n1 + n2, 16 * n3 + n4, 0, 0, 16 * n5 + n6,
        16 * n7 + n8, 0, 0] >>> 16 =
      ofBytesLE [0, 0, 16 * n5 + n6, 16 * n7 + n8, 0, 0, 0, 0] := by
    rw [ofBytesLE_shiftRight16 _ _ _ (by omega) (by omega)]
    exact (ofBytesLE_append_zeros [0, 0, 16 * n5 + n6, 16 * n7 + n8, 0, 0]
      2).symm
  have s9 : ofBytesLE [16 * n1 + n2, 16 * n3 + n4, 0, 0, 16 * n5 + n6,
        16 * n7 + n8, 0, 0] |||
      ofBytesLE [0, 0, 16 * n5 + n6, 16 * n7 + n8, 0, 0, 0, 0] =
      ofBytesLE [16 * n1 + n2, 16 * n3 + n4, 16 * n5 + n6, 16 * n7 + n8,
        16 * n5 + n6, 16 * n7 + n8, 0, 0] := by
    rw [ofBytesLE_lor _ _ (by simp)
      (by
        intro x hx
        simp only [List.mem_cons, List.not_mem_nil, or_false] at hx
        rcases hx with rfl | rfl | rfl | rfl | rfl | rfl | rfl | rfl <;> omega)
      (by
        intro x hx
        simp only [List.mem_cons, List.not_mem_nil, or_false] at hx
        rcases hx with rfl | rfl | rfl | rfl | rfl | rfl | rfl | rfl <;> omega)]
    refine congrArg ofBytesLE ?_
    simp only [List.zipWith_cons_cons, List.zipWith_nil_left, Nat.or_zero,
      Nat.zero_or]
  -- step 8: the truncation to `u32` drops the garbage upper lanes
  have s10 : ofBytesLE [16 * n1 + n2, 16 * n3 + n4, 16 * n5 + n6,
        16 * n7 + n8, 16 * n5 + n6, 16 * n7 + n8, 0, 0] % 2 ^ 32 =
      ofBytesLE [16 * n1 + n2, 16 * n3 + n4, 16 * n5 + n6, 16 * n7 + n8] := by
    show (16 * n1 + n2 + 256 * (16 * n3 + n4 + 256 * (16 * n5 + n6 +
      256 * (16 * n7 + n8 + 256 * (16 * n5 + n6 + 256 * (16 * n7 + n8 +
        256 * (0 + 256 * (0 + 256 * 0)))))))) % 2 ^ 32 =
      16 * n1 + n2 + 256 * (16 * n3 + n4 + 256 * (16 * n5 + n6 +
        256 * (16 * n7 + n8 + 256 * 0)))
    omega
  rw [s1, s2, s3, s4, s5, s6, s7, s8, s9, s10]
  have hval : ofBytesLE [16 * n1 + n2, 16 * n3 + n4, 16 * n5 + n6,
      16 * n7 + n8] = (16 * n1 + n2) + 256 * ((16 * n3 + n4) +
        256 * ((16 * n5 + n6) + 256 * ((16 * n7 + n8) + 256 * 0))) := rfl
  rw [hval]
  simp only [Option.some.injEq, HexColor.mk.injEq]
  refine ⟨?_, ?_, ?_, ?_⟩ <;> omega

lemma hexTail_valid (bs : List Nat) (hlen : bs.length = 8)
    (hv : ∀ b ∈ bs, b < 256 ∧ isHexDigit b = true) :
    hexTail (ofBytesLE bs) = colorOfNibbles (bs.map hexVal) := by
  have hb : ∀ b ∈ bs, b < 256 := fun b h => (hv b h).1
  rw [hexTail_pipeline bs hlen hb]
  rw [pipeline_valid bs hexConst (by rw [hlen]; rfl) hv (by decide)]
  rcases bs with _ | ⟨b1, _ | ⟨b2, _ | ⟨b3, _ | ⟨b4, _ | ⟨b5, _ | ⟨b6, _ |
    ⟨b7, _ | ⟨b8, _ | ⟨b9, tl⟩⟩⟩⟩⟩⟩⟩⟩⟩ <;> try simp at hlen
  have q1 := (lane_valid_facts b1 (hv b1 (by simp)).1
    (hv b1 (by simp)).2).2.2.2.2.2.2.2
  have q2 := (lane_valid_facts b2 (hv b2 (by simp)).1
    (hv b2 (by simp)).2).2.2.2.2.2.2.2
  have q3 := (lane_valid_facts b3 (hv b3 (by simp)).1
    (hv b3 (by simp)).2).2.2.2.2.2.2.2
  have q4 := (lane_valid_facts b4 (hv b4 (by simp)).1
    (hv b4 (by simp)).2).2.2.2.2.2.2.2
  have q5 := (lane_valid_facts b5 (hv b5 (by simp)).1
    (hv b5 (by simp)).2).2.2.2.2.2.2.2
  have q6 := (lane_valid_facts b6 (hv b6 (by simp)).1
    (hv b6 (by simp)).2).2.2.2.2.2.2.2
  have q7 := (lane_valid_facts b7 (hv b7 (by simp)).1
    (hv b7 (by simp)).2).2.2.2.2.2.2.2
  have q8 := (lane_valid_facts b8 (hv b8 (by simp)).1
    (hv b8 (by simp)).2).2.2.2.2.2.2.2
  show hexTailLanes [hexVal b1, hexVal b2, hexVal b3, hexVal b4, hexVal b5,
    hexVal b6, hexVal b7, hexVal b8] = _
  rw [hexTailLanes_nibbles _ _ _ _ _ _ _ _ q1 q2 q3 q4 q5 q6 q7 q8]
  rfl

lemma hexTail_invalid (bs : List Nat) (hlen : bs.length = 8)
    (hb : ∀ b ∈ bs, b < 256) (bx : Nat) (hmem : bx ∈ bs)
    (hbad : isHexDigit bx = false) :
    hexTail (ofBytesLE bs) = none := by
  rw [hexTail_pipeline bs hlen hb]
  rcases first_violation isHexDigit bs with hall | ⟨pre, x, post, rfl, hpre, hx⟩
  · rw [hall bx hmem] at hbad; cases hbad
  · have hxlt : x < 256 := hb x (by simp)
    have hprelen : pre.length < hexConst.length := by
      simp only [List.length_append, List.length_cons] at hlen
      show pre.length < 8
      omega
    obtain ⟨l, hlmem, hlne⟩ := pipeline_invalid pre x post hexConst
      (fun y hy => ⟨hb y (by simp [hy]), hpre y hy⟩) hxlt hx (by decide)
      hprelen
    have hne : ofBytesLE ((pipeline (pre ++ x :: post) hexConst 0 0 0 0).map
        fun l' => l' &&& 0xf0) ≠ 0 :=
      ofBytesLE_ne_zero _ (l &&& 0xf0) (List.mem_map_of_mem _ hlmem) hlne
    simp only [hexTailLanes]
    rw [if_pos hne]

lemma parseHexColor_badlen (input : List Nat) (h7 : input.length ≠ 7)
    (h9 : input.length ≠ 9) : parseHexColor input = none := by
  unfold parseHexColor
  rw [if_pos ⟨h7, h9⟩]

lemma parseHexColor_badhead (b0 : Nat) (rest : List Nat) (hb0 : b0 ≠ 0x23) :
    parseHexColor (b0 :: rest) = none := by
  unfold parseHexColor
  by_cases hl : (b0 :: rest).length ≠ 7 ∧ (b0 :: rest).length ≠ 9
  · rw [if_pos hl]
  · rw [if_neg hl]
    show (if b0 ≠ 0x23 then none else _) = none
    rw [if_pos hb0]

lemma parseHexColor_nine (rest : List Nat) (h : rest.length = 8) :
    parseHexColor (0x23 :: rest) = hexTail (ofBytesLE rest) := by
  unfold parseHexColor
  rw [if_neg (by simp [h])]
  show (if (0x23 : Nat) ≠ 0x23 then none else _) = _
  rw [if_neg (by simp)]
  show hexTail (if (0x23 :: rest).length = 9 then ofBytesLE rest
    else ofBytesLE (rest.take 4) |||
      (ofBytesLE ((rest.drop 2).take 4) <<< 16) ||| quarterHexyDevil) = _
  rw [if_pos (by simp [h])]

lemma parseHexColor_seven (rest : List Nat) (h : rest.length = 6) :
    parseHexColor (0x23 :: rest) =
      hexTail (ofBytesLE (rest.take 4) |||
        (ofBytesLE ((rest.drop 2).take 4) <<< 16) ||| quarterHexyDevil) := by
  unfold parseHexColor
  rw [if_neg (by simp [h])]
  show (if (0x23 : Nat) ≠ 0x23 then none else _) = _
  rw [if_neg (by simp)]
  show hexTail (if (0x23 :: rest).length = 9 then ofBytesLE rest
    else ofBytesLE (rest.take 4) |||
      (ofBytesLE ((rest.drop 2).take 4) <<< 16) ||| quarterHexyDevil) = _
  rw [if_neg (by simp [h])]

lemma data0_seven (rest : List Nat) (h : rest.length = 6)
    (hb : ∀ b ∈ rest, b < 256) :
    ofBytesLE (rest.take 4) ||| (ofBytesLE ((rest.drop 2).take 4) <<< 16) |||
      quarterHexyDevil = ofBytesLE (rest ++ [0x66, 0x66]) := by
  rcases rest with _ | ⟨r0, _ | ⟨r1, _ | ⟨r2, _ | ⟨r3, _ | ⟨r4, _ | ⟨r5, _ |
    ⟨r6, tl⟩⟩⟩⟩⟩⟩⟩ <;> try simp at h
  have hb0 : r0 < 256 := hb r0 (by simp)
  have hb1 : r1 < 256 := hb r1 (by simp)
  have hb2 : r2 < 256 := hb r2 (by simp)
  have hb3 : r3 < 256 := hb r3 (by simp)
  have hb4 : r4 < 256 := hb r4 (by simp)
  have hb5 : r5 < 256 := hb r5 (by simp)
  show ofBytesLE [r0, r1, r2, r3] |||
      (ofBytesLE [r2, r3, r4, r5] <<< 16) ||| quarterHexyDevil =
    ofBytesLE [r0, r1, r2, r3, r4, r5, 0x66, 0x66]
  have e1 : ofBytesLE [r2, r3, r4, r5] <<< 16 =
      ofBytesLE [0, 0, r2, r3, r4, r5, 0, 0] := by
    rw [Nat.shiftLeft_eq]
    have e1a : ofBytesLE [0, 0, r2, r3, r4, r5, 0, 0] =
        65536 * ofBytesLE [r2, r3, r4, r5, 0, 0] := by
      show (0 : Nat) + 256 * (0 + 256 * ofBytesLE [r2, r3, r4, r5, 0, 0]) = _
      ring
    have e1b : ofBytesLE [r2, r3, r4, r5, 0, 0] = ofBytesLE [r2, r3, r4, r5] :=
      ofBytesLE_append_zeros [r2, r3, r4, r5] 2
    rw [e1a, e1b, show (2 : Nat) ^ 16 = 65536 from rfl]
    ring
  have e0 : ofBytesLE [r0, r1, r2, r3] =
      ofBytesLE [r0, r1, r2, r3, 0, 0, 0, 0] :=
    (ofBytesLE_append_zeros [r0, r1, r2, r3] 4).symm
  rw [e0, e1,
    show quarterHexyDevil = ofBytesLE [0, 0, 0, 0, 0, 0, 0x66, 0x66] from
      by decide]
  have eL1 : ofBytesLE [r0, r1, r2, r3, 0, 0, 0, 0] |||
      ofBytesLE [0, 0, r2, r3, r4, r5, 0, 0] =
      ofBytesLE [r0, r1, r2, r3, r4, r5, 0, 0] := by
    rw [ofBytesLE_lor _ _ (by simp)
      (by
        intro x hx
        simp only [List.mem_cons, List.not_mem_nil, or_false] at hx
        rcases hx with rfl | rfl | rfl | rfl | rfl | rfl | rfl | rfl <;> omega)
      (by
        intro x hx
        simp only [List.mem_cons, List.not_mem_nil, or_false] at hx
        rcases hx with rfl | rfl | rfl | rfl | rfl | rfl | rfl | rfl <;> omega)]
    refine congrArg ofBytesLE ?_
    simp only [List.zipWith_cons_cons, List.zipWith_nil_left, Nat.or_zero,
      Nat.zero_or, Nat.or_self]
  have eL2 : ofBytesLE [r0, r1, r2, r3, r4, r5, 0, 0] |||
      ofBytesLE [0, 0, 0, 0, 0, 0, 0x66, 0x66] =
      ofBytesLE [r0, r1, r2, r3, r4, r5, 0x66, 0x66] := by
    rw [ofBytesLE_lor _ _ (by simp)
      (by
        intro x hx
        simp only [List.mem_cons, List.not_mem_nil, or_false] at hx
        rcases hx with rfl | rfl | rfl | rfl | rfl | rfl | rfl | rfl <;> omega)
      (by
        intro x hx
        simp only [List.mem_cons, List.not_mem_nil, or_false] at hx
        rcases hx with rfl | rfl | rfl | rfl | rfl | rfl | rfl | rfl <;> omega)]
    refine congrArg ofBytesLE ?_
    simp only [List.zipWith_cons_cons, List.zipWith_nil_left, Nat.or_zero,
      Nat.zero_or]
  rw [eL1, eL2]

lemma colorOfNibbles_pad (ds : List Nat) (h : ds.length = 6) :
    colorOfNibbles ((ds ++ [0x66, 0x66]).map hexVal) =
      colorOfNibbles (ds.map hexVal) := by
  rcases ds with _ | ⟨r0, _ | ⟨r1, _ | ⟨r2, _ | ⟨r3, _ | ⟨r4, _ | ⟨r5, _ |
    ⟨r6, tl⟩⟩⟩⟩⟩⟩⟩ <;> try simp at h
  rfl

/-- C10: on the UTF-8 bytes of any string, `parse_hex_color` returns `Some`
exactly when the input is `#` followed by exactly six or exactly eight
hexadecimal digits (either case), the returned colour's four bytes are the
values of the consecutive digit pairs with alpha `0xff` when only six
digits are given, and every other input — in particular every other
length — returns `None`. -/
theorem c10_hex_parse (input : List Nat) (hb : ∀ b ∈ input, b < 256)
    (c : HexColor) :
    parseHexColor input = some c ↔
      ∃ ds, input = 0x23 :: ds ∧ (ds.length = 6 ∨ ds.length = 8) ∧
        (∀ d ∈ ds, isHexDigit d = true) ∧
        colorOfNibbles (ds.map hexVal) = some c := by
  constructor
  · intro hp
    rcases input with _ | ⟨b0, rest⟩
    · rw [parseHexColor_badlen [] (by simp) (by simp)] at hp
      cases hp
    · have hbrest : ∀ b ∈ rest, b < 256 := fun b hm => hb b (by simp [hm])
      by_cases hb0 : b0 = 0x23
      swap
      · rw [parseHexColor_badhead b0 rest hb0] at hp; cases hp
      subst hb0
      by_cases hlen : rest.length = 6 ∨ rest.length = 8
      swap
      · push_neg at hlen
        rw [parseHexColor_badlen (0x23 :: rest)
          (by simp only [List.length_cons]; omega)
          (by simp only [List.length_cons]; omega)] at hp
        cases hp
      rcases hlen with h6 | h8
      · rw [parseHexColor_seven rest h6, data0_seven rest h6 hbrest] at hp
        by_cases hall : ∀ d ∈ rest, isHexDigit d = true
        · have hv : ∀ d ∈ rest ++ [0x66, 0x66],
              d < 256 ∧ isHexDigit d = true := by
            intro d hd
            rcases List.mem_append.mp hd with hd | hd
            · exact ⟨hbrest d hd, hall d hd⟩
            · simp only [List.mem_cons, List.not_mem_nil, or_false] at hd
              rcases hd with rfl | rfl <;> exact ⟨by omega, by decide⟩
          rw [hexTail_valid (rest ++ [0x66, 0x66]) (by simp [h6]) hv,
            colorOfNibbles_pad rest h6] at hp
          exact ⟨rest, rfl, Or.inl h6, hall, hp⟩
        · push_neg at hall
          obtain ⟨d, hdm, hdb⟩ := hall
          rw [hexTail_invalid (rest ++ [0x66, 0x66]) (by simp [h6])
            (by
              intro x hx
              rcases List.mem_append.mp hx with hx | hx
              · exact hbrest x hx
              · simp only [List.mem_cons, List.not_mem_nil, or_false] at hx
                rcases hx with rfl | rfl <;> omega)
            d (by simp [hdm]) (by simpa using hdb)] at hp
          cases hp
      · rw [parseHexColor_nine rest h8] at hp
        by_cases hall : ∀ d ∈ rest, isHexDigit d = true
        · rw [hexTail_valid rest h8 fun d hd => ⟨hbrest d hd, hall d hd⟩] at hp
          exact ⟨rest, rfl, Or.inr h8, hall, hp⟩
        · push_neg at hall
          obtain ⟨d, hdm, hdb⟩ := hall
          rw [hexTail_invalid rest h8 hbrest d hdm (by simpa using hdb)] at hp
          cases hp
  · rintro ⟨ds, rfl, hdl, hvalid, hcol⟩
    have hbds : ∀ b ∈ ds, b < 256 := fun b hm => hb b (by simp [hm])
    rcases hdl with h6 | h8
    · rw [parseHexColor_seven ds h6, data0_seven ds h6 hbds,
        hexTail_valid (ds ++ [0x66, 0x66]) (by simp [h6])
          (by
            intro d hd
            rcases List.mem_append.mp hd with hd | hd
            · exact ⟨hbds d hd, hvalid d hd⟩
            · simp only [List.mem_cons, List.not_mem_nil, or_false] at hd
              rcases hd with rfl | rfl <;> exact ⟨by omega, by decide⟩),
        colorOfNibbles_pad ds h6]
      exact hcol
    · rw [parseHexColor_nine ds h8,
        hexTail_valid ds h8 fun d hd => ⟨hbds d hd, hvalid d hd⟩]
      exact hcol

/-- C10 witness: `"#12ab34"` parses to the colour `12ab34ff`. -/
theorem c10_witness :
    parseHexColor [0x23, 0x31, 0x32, 0x61, 0x62, 0x33, 0x34] =
      some ⟨0x12, 0xab, 0x34, 0xff⟩ :=
  (c10_hex_parse [0x23, 0x31, 0x32, 0x61, 0x62, 0x33, 0x34] (by decide)
    ⟨0x12, 0xab, 0x34, 0xff⟩).mpr
    ⟨[0x31, 0x32, 0x61, 0x62, 0x33, 0x34], rfl, Or.inl rfl, by decide,
      by decide⟩

end Zeddy
